import Mathlib

/-!
Verification of the conceptnet-lite ingestion pipeline
(`conceptnet_lite/db.py`, function `load_dump_to_db`, and
`conceptnet_lite/utils.py`, function `_to_snake_case`).

The pipeline is embedded shallowly: the CSV source is a list of rows, the
LMDB dedup index is four association lists from byte keys (modelled as
strings, since UTF-8 encoding is injective) to surrogate integers, and the
SQLite store is five lists of inserted rows (the auto-assigned primary key
of the k-th inserted row of a table is k, i.e. its 1-based position).
Fallible Python operations (tuple-unpack failures on malformed concept
identifiers, lookups of absent keys) are modelled with `Except`.
-/

namespace ConceptnetLite

/-! ### Python string primitives -/

/-- Python `s.split(sep, maxsplit=n)` on a character list, with `acc` the
reversed accumulator of the current segment.  While `n` splits remain, a
separator character ends the current segment; once `n = 0` the separator is
kept inside the final segment. -/
def pySplitAux (sep : Char) : List Char → Nat → List Char → List (List Char)
  | [], _, acc => [acc.reverse]
  | c :: cs, 0, acc => pySplitAux sep cs 0 (c :: acc)
  | c :: cs, n + 1, acc =>
    if c = sep then acc.reverse :: pySplitAux sep cs n []
    else pySplitAux sep cs (n + 1) (c :: acc)

/-- Python `s.split(sep, maxsplit=n)`. -/
def pySplit (sep : Char) (n : Nat) (s : List Char) : List (List Char) :=
  pySplitAux sep s n []

/-- Embeds `concept_uri.split('/', maxsplit=4)` from `db.py`. -/
def splitSlash4 (s : String) : List (List Char) :=
  pySplit '/' 4 s.data

/-- ASCII range test for the regex class `[a-z]`. -/
def isLowerAZ (c : Char) : Bool := 'a' ≤ c && c ≤ 'z'

/-- ASCII range test for the regex class `[A-Z]`. -/
def isUpperAZ (c : Char) : Bool := 'A' ≤ c && c ≤ 'Z'

/-- ASCII range test for the regex class `[0-9]`. -/
def isDigit09 (c : Char) : Bool := '0' ≤ c && c ≤ '9'

/-- The substitution of `_to_snake_case` (`utils.py`): the regex
`((?<=[a-z0-9])[A-Z]|(?!^)[A-Z](?=[a-z]))` matches a single uppercase letter
that either follows a lowercase letter or digit, or is not at the start and
precedes a lowercase letter; each match is replaced by an underscore plus
itself, and the whole result is lowercased.  `prev` is the character of the
original string immediately before the current position (`none` at the
start); lookarounds inspect the original string, which is why `prev` carries
the original character. -/
def snakeAux : Option Char → List Char → List Char
  | _, [] => []
  | prev, c :: rest =>
    let boundary := isUpperAZ c &&
      (match prev with
       | none => false
       | some p =>
         isLowerAZ p || isDigit09 p ||
           (match rest with
            | [] => false
            | r :: _ => isLowerAZ r))
    (if boundary then ['_', c.toLower] else [c.toLower]) ++ snakeAux (some c) rest

/-- Embeds `_to_snake_case` from `utils.py` (ASCII inputs; `Char.toLower` agrees with
Python `str.lower` on ASCII). -/
def _to_snake_case (s : String) : String :=
  ⟨snakeAux none s.data⟩

/-! ### Identifier decomposition (`db.py`) -/

/-- Embeds `extract_relation_name`: `_to_snake_case(uri[3:])` — unconditionally drops
the first three characters (the `/r/` namespace marker); it never fails. -/
def extract_relation_name (uri : String) : String :=
  _to_snake_case ⟨uri.data.drop 3⟩

/-- Embeds `relation_in_bytes`: the relation's canonical byte key (and the stored
relation name, which is the same bytes decoded). -/
def relation_in_bytes (relation_uri : String) : String :=
  extract_relation_name relation_uri

/-- Embeds `language_and_label_in_bytes`: `tuple(x.encode() for x in
uri.split('/', maxsplit=4)[2:4])[:2]` unpacked into two variables.  The
unpack succeeds exactly when the split has at least four segments; otherwise
Python raises `ValueError`, modelled as `none`. -/
def language_and_label_in_bytes (concept_uri : String) : Option (String × String) :=
  match splitSlash4 concept_uri with
  | _ :: _ :: language :: label :: _ => some (⟨language⟩, ⟨label⟩)
  | _ => none

/-- The sense label stored for a concept: `'' if len(split_uri) == 4 else
split_uri[4]` (`insert_concept` in `db.py`).  The code only evaluates this
after `language_and_label_in_bytes` succeeded, so the split has 4 or 5
segments; shorter splits are unreachable and default to `""`. -/
def sense_label_of (uri : String) : String :=
  match splitSlash4 uri with
  | [_, _, _, _] => ""
  | [_, _, _, _, s5] => ⟨s5⟩
  | _ => ""

/-! ### State of one ingestion run -/

/-- One input row: fields 1–4 of a dump line (`row[1:5]`): relation
identifier, start identifier, end identifier, metadata text. -/
structure Row where
  relation_uri : String
  start_uri : String
  end_uri : String
  etc : String
deriving DecidableEq, Repr

/-- The state visible to `load_dump_to_db`: the four LMDB sub-databases of
the dedup index (`txn.get` / `txn.put`), the per-pass counters (reset by each
pass), and the five SQLite tables, each a list of inserted rows in insertion
order (the store's auto primary key of a row is its 1-based position). -/
structure S where
  relation_db : List (String × Nat)
  language_db : List (String × Nat)
  label_db : List (String × Nat)
  concept_db : List (String × Nat)
  relation_i : Nat
  language_i : Nat
  label_i : Nat
  concept_i : Nat
  edge_i : Nat
  relation_t : List String
  language_t : List String
  label_t : List (String × Nat)
  concept_t : List (Nat × String)
  edge_t : List (Nat × Nat × Nat × String)
deriving DecidableEq, Repr

/-- Errors surfaced by the run: a concept identifier with too few segments
(Python `ValueError` on tuple unpack — the spec's MalformedIdentifier), or a
key missing from the dedup index during the insertion pass (Python
`TypeError` on `unpack(None)`). -/
inductive LoadError where
  | malformed (uri : String)
  | missingKey (key : String)
deriving DecidableEq, Repr

/-- Empty state: fresh LMDB databases and freshly created empty tables. -/
def initS : S :=
  ⟨[], [], [], [], 0, 0, 0, 0, 0, [], [], [], [], []⟩

/-- Association-list lookup, modelling `txn.get(key, db=...)`. -/
def alookup : List (String × Nat) → String → Option Nat
  | [], _ => none
  | (k, v) :: m, a => if a = k then some v else alookup m a

/-! ### The source reader -/

/-- Embeds `edges_from_dump_by_parts_generator(count)`: yields rows in file order,
stopping as soon as the row index equals `count` (`none` = no cap). -/
def sourceRows (count : Option Nat) (rows : List Row) : List Row :=
  match count with
  | none => rows
  | some n => rows.take n

/-! ### The normalization pass (`normalize` in `db.py`) -/

/-- The check-then-put-if-absent step that each `normalize_*` helper performs
on its sub-database and counter: `X_exists = txn.get(...) is not None;
if not X_exists: X_i += 1; txn.put(key, pack_ints(X_i))`.  Returns the new
sub-database and counter. -/
def checkPut (m : List (String × Nat)) (c : Nat) (k : String) :
    List (String × Nat) × Nat :=
  match alookup m k with
  | some _ => (m, c)
  | none => ((k, c + 1) :: m, c + 1)

/-- Embeds `normalize_relation`: check-then-put-if-absent on the relation
sub-database. -/
def normalize_relation (relation_uri : String) (st : S) : S :=
  let relation_b := relation_in_bytes relation_uri
  let p := checkPut st.relation_db st.relation_i relation_b
  { st with relation_db := p.1, relation_i := p.2 }

/-- Embeds `normalize_concept`: decompose the concept identifier and
check-then-put-if-absent on the language, label and concept sub-databases
(the three steps touch disjoint state, so they are recorded in one record
update). -/
def normalize_concept (uri : String) (st : S) : Except LoadError S :=
  match language_and_label_in_bytes uri with
  | none => .error (.malformed uri)
  | some (language_b, label_b) =>
    let p₁ := checkPut st.language_db st.language_i language_b
    let label_language_b := label_b ++ "/" ++ language_b
    let p₂ := checkPut st.label_db st.label_i label_language_b
    let p₃ := checkPut st.concept_db st.concept_i uri
    .ok { st with language_db := p₁.1, language_i := p₁.2,
                  label_db := p₂.1, label_i := p₂.2,
                  concept_db := p₃.1, concept_i := p₃.2 }

/-- One loop iteration of the normalization pass: relation, then start
concept, then end concept; a failure propagates immediately. -/
def normalize_edge (r : Row) (st : S) : Except LoadError S :=
  match normalize_concept r.start_uri (normalize_relation r.relation_uri st) with
  | .error e => .error e
  | .ok st' => normalize_concept r.end_uri st'

/-- The loop of the normalization pass over a row sequence; an error aborts
immediately, processing no later row. -/
def normalizeRows (st : S) : List Row → Except LoadError S
  | [] => .ok st
  | r :: rs =>
    match normalize_edge r st with
    | .error e => .error e
    | .ok st' => normalizeRows st' rs

/-- Embeds `normalize`: reset the four counters to 0
(`language_i, relation_i, label_i, concept_i = 4 * [0]`) and scan the capped
source. -/
def normalize (count : Option Nat) (rows : List Row) (st : S) : Except LoadError S :=
  normalizeRows
    { st with relation_i := 0, language_i := 0, label_i := 0, concept_i := 0 }
    (sourceRows count rows)

/-! ### The insertion pass (`insert` in `db.py`) -/

/-- Embeds `insert_relation`: look up the relation key; if the retrieved id equals
the running counter, emit `insert into relation (name) values (?)` and
advance the counter; return the retrieved id. -/
def insert_relation (relation_uri : String) (st : S) : Except LoadError (Nat × S) :=
  let relation_b := relation_in_bytes relation_uri
  match alookup st.relation_db relation_b with
  | none => .error (.missingKey relation_b)
  | some result_id =>
    if result_id = st.relation_i then
      .ok (result_id, { st with relation_t := st.relation_t ++ [relation_b],
                                relation_i := st.relation_i + 1 })
    else
      .ok (result_id, st)

/-- Embeds `insert_concept`: look up the language, label and concept keys in turn;
on each first sight (retrieved id = running counter) emit the corresponding
insert; the label row stores the retrieved `language_id` and the concept row
stores the retrieved `label_id`; return the retrieved concept id. -/
def insert_concept (uri : String) (st : S) : Except LoadError (Nat × S) :=
  match language_and_label_in_bytes uri with
  | none => .error (.malformed uri)
  | some (language_b, label_b) =>
    match alookup st.language_db language_b with
    | none => .error (.missingKey language_b)
    | some language_id =>
      let st₁ :=
        if language_id = st.language_i then
          { st with language_t := st.language_t ++ [language_b],
                    language_i := st.language_i + 1 }
        else st
      let label_language_b := label_b ++ "/" ++ language_b
      match alookup st₁.label_db label_language_b with
      | none => .error (.missingKey label_language_b)
      | some label_id =>
        let st₂ :=
          if label_id = st₁.label_i then
            { st₁ with label_t := st₁.label_t ++ [(label_b, language_id)],
                       label_i := st₁.label_i + 1 }
          else st₁
        match alookup st₂.concept_db uri with
        | none => .error (.missingKey uri)
        | some concept_id =>
          let st₃ :=
            if concept_id = st₂.concept_i then
              { st₂ with concept_t := st₂.concept_t ++ [(label_id, sense_label_of uri)],
                         concept_i := st₂.concept_i + 1 }
            else st₂
          .ok (concept_id, st₃)

/-- Embeds `insert_objects_from_edge`: relation, start concept, end concept, then
one unconditional edge insert referencing the three retrieved ids. -/
def insert_objects_from_edge (r : Row) (st : S) : Except LoadError S :=
  match insert_relation r.relation_uri st with
  | .error e => .error e
  | .ok (relation_id, st) =>
    match insert_concept r.start_uri st with
    | .error e => .error e
    | .ok (start_id, st) =>
      match insert_concept r.end_uri st with
      | .error e => .error e
      | .ok (end_id, st) =>
        .ok { st with edge_t := st.edge_t ++ [(relation_id, start_id, end_id, r.etc)],
                      edge_i := st.edge_i + 1 }

/-- The row loop within one transaction batch. -/
def insertRows (st : S) : List Row → Except LoadError S
  | [] => .ok st
  | r :: rs =>
    match insert_objects_from_edge r st with
    | .error e => .error e
    | .ok st' => insertRows st' rs

/-- Splits a row list into consecutive batches of `b` rows (fuel-based so the
recursion is structural; `fuel = l.length` suffices for `b ≥ 1`). -/
def chunksFuel : Nat → Nat → List Row → List (List Row)
  | 0, _, _ => []
  | _ + 1, _, [] => []
  | fuel + 1, b, r :: rs => (r :: rs).take b :: chunksFuel fuel b ((r :: rs).drop b)

/-- The batches committed by the insertion pass's `while` loop: each
`db.atomic()` block consumes up to `b` rows from the generator. -/
def chunks (b : Nat) (l : List Row) : List (List Row) :=
  chunksFuel l.length b l

/-- The `while not finished` loop: one atomic transaction per batch,
committed before the next batch begins. -/
def insertBatches (st : S) : List (List Row) → Except LoadError S
  | [] => .ok st
  | b :: bs =>
    match insertRows st b with
    | .error e => .error e
    | .ok st' => insertBatches st' bs

/-- Embeds `insert`: reset the five counters to 1
(`relation_i, language_i, label_i, concept_i, edge_i = 5 * [1]`) and replay
the same capped source in batches.  The batch size is the constant
`edge_count_per_insert = 1000000` in the source; it is a parameter here so
that different batch sizes can be compared. -/
def insert (batch_size : Nat) (count : Option Nat) (rows : List Row) (st : S) :
    Except LoadError S :=
  insertBatches
    { st with relation_i := 1, language_i := 1, label_i := 1, concept_i := 1, edge_i := 1 }
    (chunks batch_size (sourceRows count rows))

/-- Embeds `load_dump_to_db`: normalization pass, then insertion pass over the same
capped source, starting from fresh index databases and empty tables. -/
def load_dump_to_db (count : Option Nat) (rows : List Row) : Except LoadError S :=
  match normalize count rows initS with
  | .error e => .error e
  | .ok st => insert 1000000 count rows st

/-! ### Analysis vocabulary

The four entity namespaces, their canonical key functions, and the sequence
of keys each pass derives from a row sequence.  `firstBy f seen l` keeps the
first element of `l` for each distinct `f`-key not already in `seen`;
`rankIn l k` is the 1-based position of `k` in `l`. -/

/-- The concept identifiers of a row list, in processing order (start then
end, row by row): the uri sequence consulted for the language, label and
concept namespaces. -/
def CU : List Row → List String
  | [] => []
  | r :: P => r.start_uri :: r.end_uri :: CU P

/-- The relation identifiers of a row list, in processing order. -/
def RU (P : List Row) : List String :=
  P.map Row.relation_uri

/-- The language key of a concept uri: segment 2 of the split (total
function; junk `""` on malformed uris, which the passes reject anyway). -/
def langKeyT (u : String) : String :=
  match language_and_label_in_bytes u with
  | some (language_b, _) => language_b
  | none => ""

/-- The label text of a concept uri: segment 3 of the split. -/
def labelTextT (u : String) : String :=
  match language_and_label_in_bytes u with
  | some (_, label_b) => label_b
  | none => ""

/-- The label key of a concept uri: `label_b + b'/' + language_b`. -/
def labKeyT (u : String) : String :=
  labelTextT u ++ "/" ++ langKeyT u

/-- The concept key of a concept uri: the full identifier bytes. -/
def conKeyT (u : String) : String :=
  u

/-- The four entity namespaces of the dedup index. -/
inductive Ns where
  | rel
  | lang
  | lab
  | con
deriving DecidableEq, Repr

/-- The canonical key function of each namespace. -/
def nsKeyFn : Ns → String → String
  | .rel => relation_in_bytes
  | .lang => langKeyT
  | .lab => labKeyT
  | .con => conKeyT

/-- The identifier sequence each namespace processes for a row list. -/
def nsUris : Ns → List Row → List String
  | .rel => RU
  | .lang => CU
  | .lab => CU
  | .con => CU

/-- The canonical key sequence of a namespace over a row list. -/
def nsKeySeq (ns : Ns) (P : List Row) : List String :=
  (nsUris ns P).map (nsKeyFn ns)

/-- The sub-database of the dedup index belonging to a namespace. -/
def nsMap : Ns → S → List (String × Nat)
  | .rel => S.relation_db
  | .lang => S.language_db
  | .lab => S.label_db
  | .con => S.concept_db

/-- The running counter belonging to a namespace. -/
def nsCounter : Ns → S → Nat
  | .rel => S.relation_i
  | .lang => S.language_i
  | .lab => S.label_i
  | .con => S.concept_i

/-- The number of rows inserted into a namespace's entity table. -/
def nsTableLen : Ns → S → Nat
  | .rel => fun st => st.relation_t.length
  | .lang => fun st => st.language_t.length
  | .lab => fun st => st.label_t.length
  | .con => fun st => st.concept_t.length

/-- First occurrences of `l` under key function `f`, skipping keys already
in `seen`. -/
def firstBy (f : String → String) (seen : List String) : List String → List String
  | [] => []
  | u :: us =>
    if f u ∈ seen then firstBy f seen us
    else u :: firstBy f (f u :: seen) us

/-- 1-based position of the first occurrence of `k` in `l`. -/
def rankIn : List String → String → Option Nat
  | [], _ => none
  | x :: xs, k => if x = k then some 1 else (rankIn xs k).map (· + 1)

/-- First-occurrence identifiers of a namespace over a row list. -/
def FU (ns : Ns) (P : List Row) : List String :=
  firstBy (nsKeyFn ns) [] (nsUris ns P)

/-- First-occurrence canonical keys of a namespace over a row list: the keys
in surrogate-id order (the key with id `i` is at position `i - 1`). -/
def FO (ns : Ns) (P : List Row) : List String :=
  (FU ns P).map (nsKeyFn ns)

/-- The surrogate id that first-occurrence numbering under key function `f`
assigns to identifier `u` over identifier sequence `L` (0 if the key never
occurs in `L`). -/
def idOfBy (f : String → String) (L : List String) (u : String) : Nat :=
  (rankIn ((firstBy f [] L).map f) (f u)).getD 0

/-- The surrogate id the dedup index assigns to identifier `u` in namespace
`ns` after normalizing the row list `P` (0 if the key never occurs). -/
def nsIdOf (ns : Ns) (P : List Row) (u : String) : Nat :=
  idOfBy (nsKeyFn ns) (nsUris ns P) u

/-- The label-table row emitted for the first occurrence of a label key
introduced by identifier `u`, over concept-identifier sequence `CUfull`:
text plus retrieved language id. -/
def labelRowBy (CUfull : List String) (u : String) : String × Nat :=
  (labelTextT u, idOfBy langKeyT CUfull u)

/-- The concept-table row emitted for the first occurrence of a concept key
`u`: retrieved label id plus sense label. -/
def conceptRowBy (CUfull : List String) (u : String) : Nat × String :=
  (idOfBy labKeyT CUfull u, sense_label_of u)

/-- The label-table row for identifier `u` over a full row list. -/
def labelRowOf (RR : List Row) (u : String) : String × Nat :=
  labelRowBy (CU RR) u

/-- The concept-table row for identifier `u` over a full row list. -/
def conceptRowOf (RR : List Row) (u : String) : Nat × String :=
  conceptRowBy (CU RR) u

/-- The edge-table row emitted for input row `r`. -/
def edgeRowOf (RR : List Row) (r : Row) : Nat × Nat × Nat × String :=
  (nsIdOf .rel RR r.relation_uri, nsIdOf .con RR r.start_uri,
    nsIdOf .con RR r.end_uri, r.etc)

/-- A row both of whose concept identifiers decompose (at least four `/`
segments): the only inputs either pass accepts. -/
def rowWF (r : Row) : Prop :=
  (language_and_label_in_bytes r.start_uri).isSome = true ∧
    (language_and_label_in_bytes r.end_uri).isSome = true

instance (r : Row) : Decidable (rowWF r) := by
  unfold rowWF
  infer_instance

/-- Every row of the list is well-formed. -/
def WFRows (rows : List Row) : Prop :=
  ∀ r ∈ rows, rowWF r

instance (rows : List Row) : Decidable (WFRows rows) := by
  unfold WFRows
  infer_instance

/-- The (language code, label text, sense label) decomposition of a concept
identifier, assembled from the code's own parsing functions. -/
def conceptTriple (uri : String) : Option (String × String × String) :=
  match language_and_label_in_bytes uri with
  | some (language_b, label_b) => some (language_b, label_b, sense_label_of uri)
  | none => none

/-- The canonical concept identifier of a (language, text, sense) triple:
`/c/{language}/{text}[/{sense}]` with the sense segment omitted when the
sense label is empty (spec §3). -/
def mkConceptUri (language text sense : String) : String :=
  "/c/" ++ language ++ "/" ++ text ++ (if sense = "" then "" else "/" ++ sense)

/-- The final `/`-separated segment of an identifier (for the spec phrase
"the identifier's final path segment"). -/
def lastSegAux : List Char → List Char → List Char
  | cur, [] => cur.reverse
  | cur, c :: cs => if c = '/' then lastSegAux [] cs else lastSegAux (c :: cur) cs

/-- The final path segment of an identifier string. -/
def lastSegment (s : String) : String :=
  ⟨lastSegAux [] s.data⟩

/-! ### Lemmas about `rankIn` -/

theorem rankIn_eq_none {l : List String} {k : String} :
    rankIn l k = none ↔ k ∉ l := by
  induction l with
  | nil => simp [rankIn]
  | cons x xs ih =>
    by_cases h : x = k
    · subst h
      simp [rankIn]
    · simp only [rankIn, if_neg h, Option.map_eq_none', ih, List.mem_cons]
      constructor
      · intro hk hor
        rcases hor with hor | hor
        · exact h hor.symm
        · exact hk hor
      · intro hk
        exact fun hm => hk (Or.inr hm)

theorem rankIn_isSome {l : List String} {k : String} (h : k ∈ l) :
    ∃ i, rankIn l k = some i := by
  rcases ho : rankIn l k with _ | i
  · exact absurd (rankIn_eq_none.mp ho) (by simpa using h)
  · exact ⟨i, rfl⟩

theorem rankIn_bounds {l : List String} {k : String} {i : Nat}
    (h : rankIn l k = some i) : 1 ≤ i ∧ i ≤ l.length := by
  induction l generalizing i with
  | nil => simp [rankIn] at h
  | cons x xs ih =>
    by_cases hx : x = k
    · simp only [rankIn, if_pos hx, Option.some.injEq] at h
      simp only [List.length_cons]
      omega
    · simp only [rankIn, if_neg hx, Option.map_eq_some'] at h
      obtain ⟨j, hj, rfl⟩ := h
      have hb := ih hj
      simp only [List.length_cons]
      omega

theorem rankIn_append_left {a : List String} (b : List String) {k : String}
    (h : k ∈ a) : rankIn (a ++ b) k = rankIn a k := by
  induction a with
  | nil => simp at h
  | cons x xs ih =>
    by_cases hx : x = k
    · simp [rankIn, if_pos hx]
    · have hm : k ∈ xs := by
        rcases List.mem_cons.mp h with h' | h'
        · exact absurd h'.symm hx
        · exact h'
      simp [rankIn, if_neg hx, ih hm]

theorem rankIn_append_right {a : List String} (b : List String) {k : String}
    (h : k ∉ a) : rankIn (a ++ b) k = (rankIn b k).map (· + a.length) := by
  induction a with
  | nil =>
    cases hb : rankIn b k <;> simp [hb]
  | cons x xs ih =>
    have hx : x ≠ k := fun hxk => h (by simp [hxk])
    have hm : k ∉ xs := fun hk => h (List.mem_cons_of_mem _ hk)
    rw [List.cons_append, rankIn, if_neg hx, ih hm]
    cases hb : rankIn b k with
    | none => simp
    | some j =>
      simp only [Option.map_some', Option.some.injEq, List.length_cons]
      omega

theorem rank_snoc_self {a : List String} {x : String} (h : x ∉ a) :
    rankIn (a ++ [x]) x = some (a.length + 1) := by
  rw [rankIn_append_right _ h]
  have h1 : rankIn [x] x = some 1 := by
    simp [rankIn]
  rw [h1]
  simp [Nat.add_comm]

theorem rank_snoc_other {a : List String} {x k : String} (h : k ≠ x) :
    rankIn (a ++ [x]) k = rankIn a k := by
  by_cases hm : k ∈ a
  · exact rankIn_append_left _ hm
  · have hxk : ¬ (x = k) := fun hc => h hc.symm
    rw [rankIn_append_right _ hm, rankIn_eq_none.mpr hm]
    simp [rankIn, hxk]

theorem rankIn_getElem {l : List String} {k : String} {i : Nat}
    (h : rankIn l k = some i) : l[i - 1]? = some k := by
  induction l generalizing i with
  | nil => simp [rankIn] at h
  | cons x xs ih =>
    by_cases hx : x = k
    · simp only [rankIn, if_pos hx, Option.some.injEq] at h
      subst hx
      simp [← h]
    · simp only [rankIn, if_neg hx, Option.map_eq_some'] at h
      obtain ⟨j, hj, rfl⟩ := h
      have hb := rankIn_bounds hj
      have : j + 1 - 1 = (j - 1) + 1 := by omega
      rw [this, List.getElem?_cons_succ]
      exact ih hj

theorem rankIn_of_nodup_getElem {l : List String} (hn : l.Nodup) {j : Nat}
    (hj : j < l.length) : rankIn l l[j] = some (j + 1) := by
  induction l generalizing j with
  | nil => simp at hj
  | cons x xs ih =>
    rw [List.nodup_cons] at hn
    cases j with
    | zero => simp [rankIn]
    | succ j =>
      have hj' : j < xs.length := by simpa using hj
      have hmem : xs[j] ∈ xs := by
        exact List.getElem_mem hj'
      have hne : x ≠ xs[j] := fun hc => hn.1 (hc ▸ hmem)
      have hcons : (x :: xs)[j + 1] = xs[j] := by simp
      rw [hcons, rankIn, if_neg hne, ih hn.2 hj']
      rfl

/-! ### Lemmas about `firstBy` -/

theorem firstBy_congr {f : String → String} (l : List String) :
    ∀ {s₁ s₂ : List String}, (∀ x, x ∈ s₁ ↔ x ∈ s₂) →
      firstBy f s₁ l = firstBy f s₂ l := by
  induction l with
  | nil => intro s₁ s₂ _; rfl
  | cons u us ih =>
    intro s₁ s₂ h
    by_cases hm : f u ∈ s₁
    · rw [firstBy, if_pos hm, firstBy, if_pos ((h _).mp hm)]
      exact ih h
    · rw [firstBy, if_neg hm, firstBy, if_neg (fun hc => hm ((h _).mpr hc))]
      congr 1
      refine ih ?_
      intro x
      simp only [List.mem_cons, h x]

theorem firstBy_append (f : String → String) (a b : List String) :
    ∀ s, firstBy f s (a ++ b) =
      firstBy f s a ++ firstBy f ((firstBy f s a).map f ++ s) b := by
  induction a with
  | nil =>
    intro s
    simp [firstBy]
  | cons u us ih =>
    intro s
    by_cases hm : f u ∈ s
    · rw [List.cons_append, firstBy, if_pos hm, firstBy, if_pos hm, ih]
    · rw [List.cons_append, firstBy, if_neg hm, firstBy, if_neg hm, ih]
      simp only [List.cons_append, List.map_cons]
      congr 2
      refine firstBy_congr b ?_
      intro x
      simp only [List.mem_append, List.mem_cons]
      tauto

theorem firstBy_mem_map {f : String → String} {k : String} :
    ∀ {s : List String} (l : List String),
      (k ∈ (firstBy f s l).map f ↔ (k ∉ s ∧ k ∈ l.map f)) := by
  intro s l
  induction l generalizing s with
  | nil => simp [firstBy]
  | cons u us ih =>
    by_cases hm : f u ∈ s
    · rw [firstBy, if_pos hm, ih]
      simp only [List.map_cons, List.mem_cons]
      constructor
      · rintro ⟨h1, h2⟩
        exact ⟨h1, Or.inr h2⟩
      · rintro ⟨h1, h2 | h2⟩
        · exact absurd (h2 ▸ hm) h1
        · exact ⟨h1, h2⟩
    · rw [firstBy, if_neg hm]
      simp only [List.map_cons, List.mem_cons, ih]
      constructor
      · rintro (rfl | ⟨h1, h2⟩)
        · exact ⟨hm, Or.inl rfl⟩
        · exact ⟨fun hc => h1 (Or.inr hc), Or.inr h2⟩
      · rintro ⟨h1, rfl | h2⟩
        · exact Or.inl rfl
        · by_cases hk : k = f u
          · exact Or.inl hk
          · exact Or.inr ⟨fun hc => hc.elim hk h1, h2⟩

theorem firstBy_mem_sub {f : String → String} {s l : List String} {u : String}
    (h : u ∈ firstBy f s l) : u ∈ l := by
  induction l generalizing s with
  | nil => simp [firstBy] at h
  | cons v vs ih =>
    by_cases hm : f v ∈ s
    · rw [firstBy, if_pos hm] at h
      exact List.mem_cons_of_mem _ (ih h)
    · rw [firstBy, if_neg hm] at h
      rcases List.mem_cons.mp h with rfl | h'
      · exact List.mem_cons_self _ _
      · exact List.mem_cons_of_mem _ (ih h')

theorem firstBy_map_nodup (f : String → String) (s l : List String) :
    ((firstBy f s l).map f).Nodup := by
  induction l generalizing s with
  | nil => simp [firstBy]
  | cons u us ih =>
    by_cases hm : f u ∈ s
    · rw [firstBy, if_pos hm]
      exact ih s
    · rw [firstBy, if_neg hm]
      simp only [List.map_cons, List.nodup_cons]
      refine ⟨fun hc => ?_, ih _⟩
      exact ((firstBy_mem_map us).mp hc).1 (List.mem_cons_self _ _)

theorem firstBy_single (f : String → String) (s : List String) (u : String) :
    firstBy f s [u] = if f u ∈ s then [] else [u] := by
  by_cases hm : f u ∈ s
  · rw [firstBy, if_pos hm, if_pos hm, firstBy]
  · rw [firstBy, if_neg hm, if_neg hm, firstBy]

theorem firstBy_snoc (f : String → String) (l : List String) (u : String) :
    firstBy f [] (l ++ [u]) =
      if f u ∈ l.map f then firstBy f [] l else firstBy f [] l ++ [u] := by
  rw [firstBy_append, firstBy_single]
  have hmem : (f u ∈ (firstBy f [] l).map f ++ []) ↔ f u ∈ l.map f := by
    rw [List.append_nil, firstBy_mem_map l]
    simp
  by_cases hm : f u ∈ l.map f
  · rw [if_pos hm, if_pos (hmem.mpr hm), List.append_nil]
  · rw [if_neg hm, if_neg (fun hc => hm (hmem.mp hc))]

/-! ### Step characterizations of the two passes, one namespace at a time -/

/-- The invariant a namespace's sub-database and counter satisfy after the
normalization pass has processed identifier sequence `U` under key function
`f`: lookups return the 1-based rank of the key among first occurrences, and
the counter counts the distinct keys. -/
def mapInv (f : String → String) (U : List String) (m : List (String × Nat))
    (c : Nat) : Prop :=
  (∀ k, alookup m k = rankIn ((firstBy f [] U).map f) k) ∧
    c = (firstBy f [] U).length

theorem checkPut_mapInv {f : String → String} {U : List String}
    {m : List (String × Nat)} {c : Nat} (h : mapInv f U m c) (u : String) :
    mapInv f (U ++ [u]) (checkPut m c (f u)).1 (checkPut m c (f u)).2 := by
  obtain ⟨hm, hc⟩ := h
  by_cases hnew : f u ∈ U.map f
  · have hmemA : f u ∈ (firstBy f [] U).map f :=
      (firstBy_mem_map U).mpr ⟨by simp, hnew⟩
    obtain ⟨i, hi⟩ := rankIn_isSome hmemA
    have hl : alookup m (f u) = some i := by rw [hm]; exact hi
    have hfo : firstBy f [] (U ++ [u]) = firstBy f [] U := by
      rw [firstBy_snoc, if_pos hnew]
    unfold checkPut
    rw [hl]
    exact ⟨by rw [hfo]; exact hm, by rw [hfo]; exact hc⟩
  · have hmemA : f u ∉ (firstBy f [] U).map f :=
      fun hc2 => hnew ((firstBy_mem_map U).mp hc2).2
    have hl : alookup m (f u) = none := by
      rw [hm]; exact rankIn_eq_none.mpr hmemA
    have hfo : firstBy f [] (U ++ [u]) = firstBy f [] U ++ [u] := by
      rw [firstBy_snoc, if_neg hnew]
    unfold checkPut
    rw [hl]
    constructor
    · intro k
      rw [hfo, List.map_append]
      by_cases hk : k = f u
      · subst hk
        rw [show (List.map f [u]) = [f u] by simp, rank_snoc_self hmemA]
        simp [alookup, List.length_map, hc]
      · have hd : alookup ((f u, c + 1) :: m) k = alookup m k := by
          simp [alookup, hk]
        rw [hd, hm k, show ([u].map f) = [f u] by simp,
          rank_snoc_other (fun hc2 => hk hc2)]
    · simp [hfo, hc]

theorem rank_full_of_seen {f : String → String} {L1 : List String}
    (L2 : List String) {u : String} (h : f u ∈ L1.map f) :
    ∃ i, rankIn ((firstBy f [] (L1 ++ u :: L2)).map f) (f u) = some i ∧
      i ≤ (firstBy f [] L1).length := by
  have hmemA : f u ∈ (firstBy f [] L1).map f :=
    (firstBy_mem_map L1).mpr ⟨by simp, h⟩
  obtain ⟨i, hi⟩ := rankIn_isSome hmemA
  refine ⟨i, ?_, ?_⟩
  · rw [firstBy_append, List.map_append, rankIn_append_left _ hmemA]
    exact hi
  · have hb := (rankIn_bounds hi).2
    rwa [List.length_map] at hb

theorem rank_full_of_new {f : String → String} {L1 : List String}
    (L2 : List String) {u : String} (h : f u ∉ L1.map f) :
    rankIn ((firstBy f [] (L1 ++ u :: L2)).map f) (f u)
      = some ((firstBy f [] L1).length + 1) := by
  have hmemA : f u ∉ (firstBy f [] L1).map f :=
    fun hc => h ((firstBy_mem_map L1).mp hc).2
  rw [firstBy_append]
  have hseen : ¬ f u ∈ ((firstBy f [] L1).map f ++ []) := by
    simpa using hmemA
  rw [firstBy, if_neg hseen, List.map_append, List.map_cons,
    rankIn_append_right _ hmemA]
  have h1 : rankIn (f u :: (firstBy f (f u :: ((firstBy f [] L1).map f ++ []))
      L2).map f) (f u) = some 1 := by
    simp [rankIn]
  rw [h1]
  simp [List.length_map, Nat.add_comm]

/-- The effect of one insertion-pass lookup step in one namespace, for the
identifier `u` at position `|L1|` of the namespace's full identifier
sequence `L1 ++ u :: L2`: the retrieved id equals the running counter
exactly when the key is unseen in `L1`, in which case the counter advances
and row `g u` is appended to the table. -/
theorem insStep {α : Type} {f : String → String} (g : String → α)
    {L1 : List String} (L2 : List String) {u : String} {c : Nat} {tab : List α}
    (hc : c = (firstBy f [] L1).length + 1)
    (ht : tab = (firstBy f [] L1).map g) :
    ∃ i, rankIn ((firstBy f [] (L1 ++ u :: L2)).map f) (f u) = some i ∧
      (i = c ↔ f u ∉ L1.map f) ∧
      (if i = c then c + 1 else c) = (firstBy f [] (L1 ++ [u])).length + 1 ∧
      (if i = c then tab ++ [g u] else tab) = (firstBy f [] (L1 ++ [u])).map g := by
  by_cases hnew : f u ∈ L1.map f
  · obtain ⟨i, hi, hle⟩ := rank_full_of_seen L2 hnew
    have hne : ¬ i = c := by omega
    have hfo : firstBy f [] (L1 ++ [u]) = firstBy f [] L1 := by
      rw [firstBy_snoc, if_pos hnew]
    refine ⟨i, hi, ?_, ?_, ?_⟩
    · exact iff_of_false hne (fun hcc => hcc hnew)
    · rw [if_neg hne, hfo, hc]
    · rw [if_neg hne, hfo, ht]
  · have hi := rank_full_of_new L2 hnew
    have hic : (firstBy f [] L1).length + 1 = c := hc.symm
    have hfo : firstBy f [] (L1 ++ [u]) = firstBy f [] L1 ++ [u] := by
      rw [firstBy_snoc, if_neg hnew]
    refine ⟨(firstBy f [] L1).length + 1, hi, ?_, ?_, ?_⟩
    · exact iff_of_true hic hnew
    · rw [if_pos hic, hfo]
      simp [hc]
    · rw [if_pos hic, hfo, List.map_append, ht]
      simp

/-! ### Row-sequence plumbing -/

theorem CU_append (P Q : List Row) : CU (P ++ Q) = CU P ++ CU Q := by
  induction P with
  | nil => rfl
  | cons r rs ih => simp [CU, ih]

theorem RU_append (P Q : List Row) : RU (P ++ Q) = RU P ++ RU Q := by
  simp [RU]

/-! ### The normalization pass establishes the index invariant -/

/-- The joint invariant of the dedup index after the normalization pass has
processed row list `P`. -/
def NormInv (P : List Row) (st : S) : Prop :=
  mapInv relation_in_bytes (RU P) st.relation_db st.relation_i ∧
  mapInv langKeyT (CU P) st.language_db st.language_i ∧
  mapInv labKeyT (CU P) st.label_db st.label_i ∧
  mapInv conKeyT (CU P) st.concept_db st.concept_i

theorem langKeyT_eq {u : String} {lb tb : String}
    (h : language_and_label_in_bytes u = some (lb, tb)) : langKeyT u = lb := by
  simp [langKeyT, h]

theorem labelTextT_eq {u : String} {lb tb : String}
    (h : language_and_label_in_bytes u = some (lb, tb)) : labelTextT u = tb := by
  simp [labelTextT, h]

theorem normalize_concept_spec {u : String} {U : List String} {st : S}
    (hu : (language_and_label_in_bytes u).isSome = true)
    (hL : mapInv langKeyT U st.language_db st.language_i)
    (hB : mapInv labKeyT U st.label_db st.label_i)
    (hC : mapInv conKeyT U st.concept_db st.concept_i) :
    ∃ st', normalize_concept u st = .ok st' ∧
      mapInv langKeyT (U ++ [u]) st'.language_db st'.language_i ∧
      mapInv labKeyT (U ++ [u]) st'.label_db st'.label_i ∧
      mapInv conKeyT (U ++ [u]) st'.concept_db st'.concept_i ∧
      st'.relation_db = st.relation_db ∧
      st'.relation_i = st.relation_i ∧
      st'.relation_t = st.relation_t ∧
      st'.language_t = st.language_t ∧
      st'.label_t = st.label_t ∧
      st'.concept_t = st.concept_t ∧
      st'.edge_t = st.edge_t ∧
      st'.edge_i = st.edge_i := by
  obtain ⟨⟨lb, tb⟩, hsome⟩ : ∃ p, language_and_label_in_bytes u = some p := by
    cases hx : language_and_label_in_bytes u
    · rw [hx] at hu
      simp at hu
    · exact ⟨_, rfl⟩
  have hlang : langKeyT u = lb := langKeyT_eq hsome
  have htext : labelTextT u = tb := labelTextT_eq hsome
  have hlabk : labKeyT u = tb ++ "/" ++ lb := by
    rw [labKeyT, hlang, htext]
  refine ⟨{ st with
      language_db := (checkPut st.language_db st.language_i lb).1,
      language_i := (checkPut st.language_db st.language_i lb).2,
      label_db := (checkPut st.label_db st.label_i (tb ++ "/" ++ lb)).1,
      label_i := (checkPut st.label_db st.label_i (tb ++ "/" ++ lb)).2,
      concept_db := (checkPut st.concept_db st.concept_i u).1,
      concept_i := (checkPut st.concept_db st.concept_i u).2 },
    ?_, ?_, ?_, ?_, rfl, rfl, rfl, rfl, rfl, rfl, rfl, rfl⟩
  · unfold normalize_concept
    rw [hsome]
  · have h1 := checkPut_mapInv hL u
    rw [hlang] at h1
    exact h1
  · have h1 := checkPut_mapInv hB u
    rw [hlabk] at h1
    exact h1
  · exact checkPut_mapInv hC u

theorem normalize_edge_spec {r : Row} {P : List Row} {st : S}
    (hr : rowWF r) (h : NormInv P st) :
    ∃ st', normalize_edge r st = .ok st' ∧ NormInv (P ++ [r]) st' ∧
      st'.relation_t = st.relation_t ∧ st'.language_t = st.language_t ∧
      st'.label_t = st.label_t ∧ st'.concept_t = st.concept_t ∧
      st'.edge_t = st.edge_t ∧ st'.edge_i = st.edge_i := by
  obtain ⟨hRel, hL, hB, hC⟩ := h
  have hRel₀ : mapInv relation_in_bytes (RU P ++ [r.relation_uri])
      (normalize_relation r.relation_uri st).relation_db
      (normalize_relation r.relation_uri st).relation_i :=
    checkPut_mapInv hRel r.relation_uri
  obtain ⟨st₁, he₁, hL₁, hB₁, hC₁, hrdb₁, hri₁, hrt₁, hlt₁, hbt₁, hct₁, het₁, hei₁⟩ :=
    @normalize_concept_spec _ _ (normalize_relation r.relation_uri st) hr.1 hL hB hC
  obtain ⟨st₂, he₂, hL₂, hB₂, hC₂, hrdb₂, hri₂, hrt₂, hlt₂, hbt₂, hct₂, het₂, hei₂⟩ :=
    @normalize_concept_spec _ _ st₁ hr.2 hL₁ hB₁ hC₁
  have hCU : CU (P ++ [r]) = (CU P ++ [r.start_uri]) ++ [r.end_uri] := by
    rw [CU_append]
    simp [CU]
  have hRU : RU (P ++ [r]) = RU P ++ [r.relation_uri] := by
    rw [RU_append]
    rfl
  refine ⟨st₂, ?_, ⟨?_, ?_, ?_, ?_⟩, ?_, ?_, ?_, ?_, ?_, ?_⟩
  · unfold normalize_edge
    rw [he₁]
    exact he₂
  · rw [hRU, hrdb₂, hri₂, hrdb₁, hri₁]
    exact hRel₀
  · rw [hCU]
    exact hL₂
  · rw [hCU]
    exact hB₂
  · rw [hCU]
    exact hC₂
  · rw [hrt₂, hrt₁]
    rfl
  · rw [hlt₂, hlt₁]
    rfl
  · rw [hbt₂, hbt₁]
    rfl
  · rw [hct₂, hct₁]
    rfl
  · rw [het₂, het₁]
    rfl
  · rw [hei₂, hei₁]
    rfl

theorem normalizeRows_spec :
    ∀ (Q P : List Row) (st : S), WFRows Q → NormInv P st →
    ∃ st', normalizeRows st Q = .ok st' ∧ NormInv (P ++ Q) st' ∧
      st'.relation_t = st.relation_t ∧ st'.language_t = st.language_t ∧
      st'.label_t = st.label_t ∧ st'.concept_t = st.concept_t ∧
      st'.edge_t = st.edge_t ∧ st'.edge_i = st.edge_i := by
  intro Q
  induction Q with
  | nil =>
    intro P st _ h
    exact ⟨st, rfl, by simpa using h, rfl, rfl, rfl, rfl, rfl, rfl⟩
  | cons r rs ih =>
    intro P st hWF h
    obtain ⟨st₁, he₁, h₁, ht₁⟩ :=
      normalize_edge_spec (hWF r (List.mem_cons_self _ _)) h
    obtain ⟨st₂, he₂, h₂, ht₂⟩ :=
      ih (P ++ [r]) st₁ (fun x hx => hWF x (List.mem_cons_of_mem _ hx)) h₁
    refine ⟨st₂, ?_, ?_, ?_, ?_, ?_, ?_, ?_, ?_⟩
    · rw [normalizeRows, he₁]
      exact he₂
    · rw [show P ++ r :: rs = (P ++ [r]) ++ rs by simp]
      exact h₂
    · rw [ht₂.1, ht₁.1]
    · rw [ht₂.2.1, ht₁.2.1]
    · rw [ht₂.2.2.1, ht₁.2.2.1]
    · rw [ht₂.2.2.2.1, ht₁.2.2.2.1]
    · rw [ht₂.2.2.2.2.1, ht₁.2.2.2.2.1]
    · rw [ht₂.2.2.2.2.2, ht₁.2.2.2.2.2]

theorem NormInv_init : NormInv [] initS := by
  refine ⟨?_, ?_, ?_, ?_⟩ <;>
    exact ⟨fun k => by simp [alookup, firstBy, rankIn, initS],
      by simp [firstBy, initS]⟩

theorem insert_relation_spec {uri : String} {L1 : List String} (L2 : List String)
    {st : S}
    (hm : ∀ k, alookup st.relation_db k
      = rankIn ((firstBy relation_in_bytes [] (L1 ++ uri :: L2)).map relation_in_bytes) k)
    (hc : st.relation_i = (firstBy relation_in_bytes [] L1).length + 1)
    (ht : st.relation_t = (firstBy relation_in_bytes [] L1).map relation_in_bytes) :
    ∃ st', insert_relation uri st
        = .ok (idOfBy relation_in_bytes (L1 ++ uri :: L2) uri, st') ∧
      st'.relation_i = (firstBy relation_in_bytes [] (L1 ++ [uri])).length + 1 ∧
      st'.relation_t = (firstBy relation_in_bytes [] (L1 ++ [uri])).map relation_in_bytes ∧
      st'.relation_db = st.relation_db ∧ st'.language_db = st.language_db ∧
      st'.label_db = st.label_db ∧ st'.concept_db = st.concept_db ∧
      st'.language_i = st.language_i ∧ st'.label_i = st.label_i ∧
      st'.concept_i = st.concept_i ∧ st'.language_t = st.language_t ∧
      st'.label_t = st.label_t ∧ st'.concept_t = st.concept_t ∧
      st'.edge_t = st.edge_t ∧ st'.edge_i = st.edge_i := by
  obtain ⟨i, hi, hiff, hcnt, htab⟩ :=
    insStep (f := relation_in_bytes) relation_in_bytes L2 (u := uri) hc ht
  have hlook : alookup st.relation_db (relation_in_bytes uri) = some i := by
    rw [hm]
    exact hi
  have hid : idOfBy relation_in_bytes (L1 ++ uri :: L2) uri = i := by
    unfold idOfBy
    rw [hi]
    rfl
  by_cases hq : i = st.relation_i
  · refine ⟨{ st with
        relation_t := st.relation_t ++ [relation_in_bytes uri],
        relation_i := st.relation_i + 1 },
      ?_, ?_, ?_, rfl, rfl, rfl, rfl, rfl, rfl, rfl, rfl, rfl, rfl, rfl, rfl⟩
    · rw [hid]
      unfold insert_relation
      simp only [hlook]
      rw [if_pos hq]
    · rw [if_pos hq] at hcnt
      exact hcnt
    · rw [if_pos hq] at htab
      exact htab
  · refine ⟨st, ?_, ?_, ?_, rfl, rfl, rfl, rfl, rfl, rfl, rfl, rfl, rfl, rfl, rfl, rfl⟩
    · rw [hid]
      unfold insert_relation
      simp only [hlook]
      rw [if_neg hq]
    · rw [if_neg hq] at hcnt
      exact hcnt
    · rw [if_neg hq] at htab
      exact htab

theorem insert_concept_spec {u : String} {L1 : List String} (L2 : List String)
    {st : S}
    (hu : (language_and_label_in_bytes u).isSome = true)
    (hmL : ∀ k, alookup st.language_db k
      = rankIn ((firstBy langKeyT [] (L1 ++ u :: L2)).map langKeyT) k)
    (hmB : ∀ k, alookup st.label_db k
      = rankIn ((firstBy labKeyT [] (L1 ++ u :: L2)).map labKeyT) k)
    (hmC : ∀ k, alookup st.concept_db k
      = rankIn ((firstBy conKeyT [] (L1 ++ u :: L2)).map conKeyT) k)
    (hcL : st.language_i = (firstBy langKeyT [] L1).length + 1)
    (hcB : st.label_i = (firstBy labKeyT [] L1).length + 1)
    (hcC : st.concept_i = (firstBy conKeyT [] L1).length + 1)
    (htL : st.language_t = (firstBy langKeyT [] L1).map langKeyT)
    (htB : st.label_t = (firstBy labKeyT [] L1).map (labelRowBy (L1 ++ u :: L2)))
    (htC : st.concept_t = (firstBy conKeyT [] L1).map (conceptRowBy (L1 ++ u :: L2))) :
    ∃ st', insert_concept u st = .ok (idOfBy conKeyT (L1 ++ u :: L2) u, st') ∧
      st'.language_i = (firstBy langKeyT [] (L1 ++ [u])).length + 1 ∧
      st'.label_i = (firstBy labKeyT [] (L1 ++ [u])).length + 1 ∧
      st'.concept_i = (firstBy conKeyT [] (L1 ++ [u])).length + 1 ∧
      st'.language_t = (firstBy langKeyT [] (L1 ++ [u])).map langKeyT ∧
      st'.label_t = (firstBy labKeyT [] (L1 ++ [u])).map (labelRowBy (L1 ++ u :: L2)) ∧
      st'.concept_t = (firstBy conKeyT [] (L1 ++ [u])).map (conceptRowBy (L1 ++ u :: L2)) ∧
      st'.relation_db = st.relation_db ∧ st'.language_db = st.language_db ∧
      st'.label_db = st.label_db ∧ st'.concept_db = st.concept_db ∧
      st'.relation_i = st.relation_i ∧ st'.relation_t = st.relation_t ∧
      st'.edge_t = st.edge_t ∧ st'.edge_i = st.edge_i := by
  obtain ⟨⟨lb, tb⟩, hsome⟩ : ∃ p, language_and_label_in_bytes u = some p := by
    cases hx : language_and_label_in_bytes u
    · rw [hx] at hu
      simp at hu
    · exact ⟨_, rfl⟩
  have hlang : langKeyT u = lb := langKeyT_eq hsome
  have htext : labelTextT u = tb := labelTextT_eq hsome
  have hlabk : labKeyT u = tb ++ "/" ++ lb := by
    rw [labKeyT, hlang, htext]
  obtain ⟨iL, hiL, hiffL, hcntL, htabL⟩ :=
    insStep (f := langKeyT) langKeyT L2 (u := u) hcL htL
  obtain ⟨iB, hiB, hiffB, hcntB, htabB⟩ :=
    insStep (f := labKeyT) (labelRowBy (L1 ++ u :: L2)) L2 (u := u) hcB htB
  obtain ⟨iC, hiC, hiffC, hcntC, htabC⟩ :=
    insStep (f := conKeyT) (conceptRowBy (L1 ++ u :: L2)) L2 (u := u) hcC htC
  have hlookL : alookup st.language_db lb = some iL := by
    rw [← hlang, hmL]
    exact hiL
  have hlookB : alookup st.label_db (tb ++ "/" ++ lb) = some iB := by
    rw [← hlabk, hmB]
    exact hiB
  have hlookC : alookup st.concept_db u = some iC := by
    rw [hmC]
    exact hiC
  have hidL : idOfBy langKeyT (L1 ++ u :: L2) u = iL := by
    unfold idOfBy
    rw [hiL]
    rfl
  have hidB : idOfBy labKeyT (L1 ++ u :: L2) u = iB := by
    unfold idOfBy
    rw [hiB]
    rfl
  have hidC : idOfBy conKeyT (L1 ++ u :: L2) u = iC := by
    unfold idOfBy
    rw [hiC]
    rfl
  have hrowB : labelRowBy (L1 ++ u :: L2) u = (tb, iL) := by
    rw [labelRowBy, htext, hidL]
  have hrowC : conceptRowBy (L1 ++ u :: L2) u = (iB, sense_label_of u) := by
    rw [conceptRowBy, hidB]
  rw [hlang] at htabL
  rw [hrowB] at htabB
  rw [hrowC] at htabC
  refine ⟨{ st with
      language_i := if iL = st.language_i then st.language_i + 1 else st.language_i,
      language_t := if iL = st.language_i then st.language_t ++ [lb] else st.language_t,
      label_i := if iB = st.label_i then st.label_i + 1 else st.label_i,
      label_t := if iB = st.label_i then st.label_t ++ [(tb, iL)] else st.label_t,
      concept_i := if iC = st.concept_i then st.concept_i + 1 else st.concept_i,
      concept_t := if iC = st.concept_i then st.concept_t ++ [(iB, sense_label_of u)]
        else st.concept_t },
    ?_, ?_, ?_, ?_, ?_, ?_, ?_, rfl, rfl, rfl, rfl, rfl, rfl, rfl, rfl⟩
  · rw [hidC]
    unfold insert_concept
    rw [hsome]
    by_cases hqL : iL = st.language_i <;>
      by_cases hqB : iB = st.label_i <;>
        by_cases hqC : iC = st.concept_i <;>
          simp [hlookL, hlookB, hlookC, hqL, hqB, hqC]
  · exact hcntL
  · exact hcntB
  · exact hcntC
  · exact htabL
  · exact htabB
  · exact htabC

/-! ### The insertion pass: joint invariant and row step -/

/-- The joint invariant of the insertion pass over full (capped) source `RR`
after processing prefix `P`: the dedup index is the one the normalization
pass built over all of `RR` and is never written; each counter is one past
the number of distinct keys seen in `P`; each entity table holds exactly the
first-occurrence rows of `P` in order; the edge table holds one row per
processed input row. -/
def InsInv (RR P : List Row) (st : S) : Prop :=
  (∀ k, alookup st.relation_db k
    = rankIn ((firstBy relation_in_bytes [] (RU RR)).map relation_in_bytes) k) ∧
  (∀ k, alookup st.language_db k
    = rankIn ((firstBy langKeyT [] (CU RR)).map langKeyT) k) ∧
  (∀ k, alookup st.label_db k
    = rankIn ((firstBy labKeyT [] (CU RR)).map labKeyT) k) ∧
  (∀ k, alookup st.concept_db k
    = rankIn ((firstBy conKeyT [] (CU RR)).map conKeyT) k) ∧
  st.relation_i = (firstBy relation_in_bytes [] (RU P)).length + 1 ∧
  st.language_i = (firstBy langKeyT [] (CU P)).length + 1 ∧
  st.label_i = (firstBy labKeyT [] (CU P)).length + 1 ∧
  st.concept_i = (firstBy conKeyT [] (CU P)).length + 1 ∧
  st.relation_t = (firstBy relation_in_bytes [] (RU P)).map relation_in_bytes ∧
  st.language_t = (firstBy langKeyT [] (CU P)).map langKeyT ∧
  st.label_t = (firstBy labKeyT [] (CU P)).map (labelRowBy (CU RR)) ∧
  st.concept_t = (firstBy conKeyT [] (CU P)).map (conceptRowBy (CU RR)) ∧
  st.edge_t = P.map (edgeRowOf RR) ∧
  st.edge_i = P.length + 1

theorem nsIdOf_rel (P : List Row) (u : String) :
    nsIdOf .rel P u = idOfBy relation_in_bytes (RU P) u := rfl

theorem nsIdOf_lang (P : List Row) (u : String) :
    nsIdOf .lang P u = idOfBy langKeyT (CU P) u := rfl

theorem nsIdOf_lab (P : List Row) (u : String) :
    nsIdOf .lab P u = idOfBy labKeyT (CU P) u := rfl

theorem nsIdOf_con (P : List Row) (u : String) :
    nsIdOf .con P u = idOfBy conKeyT (CU P) u := rfl

theorem insert_objects_spec {r : Row} {RR P Q : List Row} {st : S}
    (hWFr : rowWF r) (hRR : RR = P ++ r :: Q) (h : InsInv RR P st) :
    ∃ st', insert_objects_from_edge r st = .ok st' ∧ InsInv RR (P ++ [r]) st' := by
  obtain ⟨hm1, hm2, hm3, hm4, hc1, hc2, hc3, hc4, ht1, ht2, ht3, ht4, hge, hgi⟩ := h
  have hRUd : RU RR = RU P ++ r.relation_uri :: RU Q := by
    rw [hRR, RU_append]
    rfl
  have hCUd : CU RR = CU P ++ r.start_uri :: (r.end_uri :: CU Q) := by
    rw [hRR, CU_append]
    rfl
  have hCUd2 : CU P ++ r.start_uri :: (r.end_uri :: CU Q)
      = (CU P ++ [r.start_uri]) ++ r.end_uri :: CU Q := by
    simp
  have hRUsnoc : RU (P ++ [r]) = RU P ++ [r.relation_uri] := by
    rw [RU_append]
    rfl
  have hCUsnoc : CU (P ++ [r]) = (CU P ++ [r.start_uri]) ++ [r.end_uri] := by
    rw [CU_append]
    simp [CU]
  rw [hRUd] at hm1
  rw [hCUd] at hm2 hm3 hm4 ht3 ht4
  -- relation step
  obtain ⟨st₁, heq₁, hri₁, hrt₁, hrdb₁, hldb₁, hbdb₁, hcdb₁,
    hli₁, hbi₁, hci₁, hlt₁, hbt₁, hct₁, het₁, hei₁⟩ :=
    insert_relation_spec (RU Q) hm1 hc1 ht1
  -- start-concept step
  obtain ⟨st₂, heq₂, hli₂, hbi₂, hci₂, hlt₂, hbt₂, hct₂, hrdb₂, hldb₂, hbdb₂, hcdb₂,
    hri₂, hrt₂, het₂, hei₂⟩ :=
    @insert_concept_spec _ (CU P) (r.end_uri :: CU Q) st₁ hWFr.1
      (fun k => by rw [hldb₁]; exact hm2 k)
      (fun k => by rw [hbdb₁]; exact hm3 k)
      (fun k => by rw [hcdb₁]; exact hm4 k)
      (by rw [hli₁]; exact hc2)
      (by rw [hbi₁]; exact hc3)
      (by rw [hci₁]; exact hc4)
      (by rw [hlt₁]; exact ht2)
      (by rw [hbt₁]; exact ht3)
      (by rw [hct₁]; exact ht4)
  -- end-concept step
  rw [hCUd2] at hbt₂ hct₂
  obtain ⟨st₃, heq₃, hli₃, hbi₃, hci₃, hlt₃, hbt₃, hct₃, hrdb₃, hldb₃, hbdb₃, hcdb₃,
    hri₃, hrt₃, het₃, hei₃⟩ :=
    @insert_concept_spec _ (CU P ++ [r.start_uri]) (CU Q) st₂ hWFr.2
      (fun k => by rw [hldb₂, hldb₁, ← hCUd2]; exact hm2 k)
      (fun k => by rw [hbdb₂, hbdb₁, ← hCUd2]; exact hm3 k)
      (fun k => by rw [hcdb₂, hcdb₁, ← hCUd2]; exact hm4 k)
      (by rw [hli₂])
      (by rw [hbi₂])
      (by rw [hci₂])
      (by rw [hlt₂])
      (by rw [hbt₂])
      (by rw [hct₂])
  refine ⟨{ st₃ with
      edge_t := st₃.edge_t ++
        [(idOfBy relation_in_bytes (RU P ++ r.relation_uri :: RU Q) r.relation_uri,
          idOfBy conKeyT (CU P ++ r.start_uri :: (r.end_uri :: CU Q)) r.start_uri,
          idOfBy conKeyT ((CU P ++ [r.start_uri]) ++ r.end_uri :: CU Q) r.end_uri,
          r.etc)],
      edge_i := st₃.edge_i + 1 },
    ?_, ?_⟩
  · unfold insert_objects_from_edge
    rw [heq₁]
    simp only [heq₂, heq₃]
  · refine ⟨?_, ?_, ?_, ?_, ?_, ?_, ?_, ?_, ?_, ?_, ?_, ?_, ?_, ?_⟩
    · intro k
      rw [hRUd]
      show alookup st₃.relation_db k = _
      rw [hrdb₃, hrdb₂, hrdb₁]
      exact hm1 k
    · intro k
      rw [hCUd, hCUd2]
      show alookup st₃.language_db k = _
      rw [hldb₃, hldb₂, hldb₁]
      rw [hCUd2] at hm2
      exact hm2 k
    · intro k
      rw [hCUd, hCUd2]
      show alookup st₃.label_db k = _
      rw [hbdb₃, hbdb₂, hbdb₁]
      rw [hCUd2] at hm3
      exact hm3 k
    · intro k
      rw [hCUd, hCUd2]
      show alookup st₃.concept_db k = _
      rw [hcdb₃, hcdb₂, hcdb₁]
      rw [hCUd2] at hm4
      exact hm4 k
    · show st₃.relation_i = _
      rw [hri₃, hri₂, hri₁, hRUsnoc]
    · show st₃.language_i = _
      rw [hli₃, hCUsnoc]
    · show st₃.label_i = _
      rw [hbi₃, hCUsnoc]
    · show st₃.concept_i = _
      rw [hci₃, hCUsnoc]
    · show st₃.relation_t = _
      rw [hrt₃, hrt₂, hrt₁, hRUsnoc]
    · show st₃.language_t = _
      rw [hlt₃, hCUsnoc]
    · show st₃.label_t = _
      rw [hbt₃, hCUsnoc, hCUd, hCUd2]
    · show st₃.concept_t = _
      rw [hct₃, hCUsnoc, hCUd, hCUd2]
    · show st₃.edge_t ++ _ = _
      have hrow : edgeRowOf RR r
          = (idOfBy relation_in_bytes (RU P ++ r.relation_uri :: RU Q) r.relation_uri,
             idOfBy conKeyT (CU P ++ r.start_uri :: (r.end_uri :: CU Q)) r.start_uri,
             idOfBy conKeyT ((CU P ++ [r.start_uri]) ++ r.end_uri :: CU Q) r.end_uri,
             r.etc) := by
        unfold edgeRowOf
        rw [nsIdOf_rel, nsIdOf_con, nsIdOf_con, hRUd, hCUd]
        nth_rewrite 2 [hCUd2]
        rfl
      rw [het₃, het₂, het₁, hge, ← hrow]
      simp
    · show st₃.edge_i + 1 = _
      rw [hei₃, hei₂, hei₁, hgi]
      simp

theorem insertRows_spec :
    ∀ (Q P RR : List Row) (st : S), WFRows Q → RR = P ++ Q → InsInv RR P st →
    ∃ st', insertRows st Q = .ok st' ∧ InsInv RR (P ++ Q) st' := by
  intro Q
  induction Q with
  | nil =>
    intro P RR st _ _ h
    exact ⟨st, rfl, by simpa using h⟩
  | cons r rs ih =>
    intro P RR st hWF hRR h
    obtain ⟨st₁, he₁, h₁⟩ :=
      insert_objects_spec (hWF r (List.mem_cons_self _ _)) hRR h
    obtain ⟨st₂, he₂, h₂⟩ :=
      ih (P ++ [r]) RR st₁ (fun x hx => hWF x (List.mem_cons_of_mem _ hx))
        (by rw [hRR]; simp) h₁
    refine ⟨st₂, ?_, ?_⟩
    · rw [insertRows, he₁]
      exact he₂
    · rw [show (P ++ [r]) ++ rs = P ++ r :: rs by simp] at h₂
      exact h₂

/-- Starting state of the insertion pass: the dedup index built by a full
normalization pass, empty tables, and the five counters reset to 1. -/
theorem InsInv_start {RR : List Row} {NM : S} (h : NormInv RR NM)
    (ht1 : NM.relation_t = []) (ht2 : NM.language_t = [])
    (ht3 : NM.label_t = []) (ht4 : NM.concept_t = []) (ht5 : NM.edge_t = []) :
    InsInv RR []
      { NM with
        relation_i := 1
        language_i := 1
        label_i := 1
        concept_i := 1
        edge_i := 1 } := by
  obtain ⟨⟨hm1, _⟩, ⟨hm2, _⟩, ⟨hm3, _⟩, ⟨hm4, _⟩⟩ := h
  refine ⟨hm1, hm2, hm3, hm4, ?_, ?_, ?_, ?_, ?_, ?_, ?_, ?_, ?_, ?_⟩ <;>
    simp [RU, CU, firstBy, ht1, ht2, ht3, ht4, ht5]

/-! ### Batching is invisible in the final state -/

theorem insertRows_append (a b : List Row) :
    ∀ st, insertRows st (a ++ b)
      = match insertRows st a with
        | .error e => .error e
        | .ok st' => insertRows st' b := by
  induction a with
  | nil =>
    intro st
    simp [insertRows]
  | cons r rs ih =>
    intro st
    cases h : insert_objects_from_edge r st with
    | error e => simp [insertRows, h]
    | ok st' => simp [insertRows, h, ih st']

theorem chunksFuel_insertBatches {b : Nat} (hb : 1 ≤ b) :
    ∀ (fuel : Nat) (l : List Row) (st : S), l.length ≤ fuel →
      insertBatches st (chunksFuel fuel b l) = insertRows st l := by
  intro fuel
  induction fuel with
  | zero =>
    intro l st hl
    have : l = [] := List.eq_nil_of_length_eq_zero (by omega)
    subst this
    rfl
  | succ n ih =>
    intro l st hl
    cases l with
    | nil => rfl
    | cons r rs =>
      have hsplit := insertRows_append ((r :: rs).take b) ((r :: rs).drop b) st
      rw [List.take_append_drop] at hsplit
      rw [hsplit, chunksFuel, insertBatches]
      have hdl : ((r :: rs).drop b).length ≤ n := by
        rw [List.length_drop]
        simp only [List.length_cons] at hl ⊢
        omega
      cases hr : insertRows st ((r :: rs).take b) with
      | error e => rfl
      | ok st' => exact ih ((r :: rs).drop b) st' hdl

theorem insert_eq_insertRows {b : Nat} (hb : 1 ≤ b) (cap : Option Nat)
    (rows : List Row) (st : S) :
    insert b cap rows st
      = insertRows
          { st with
            relation_i := 1
            language_i := 1
            label_i := 1
            concept_i := 1
            edge_i := 1 } (sourceRows cap rows) := by
  unfold insert chunks
  exact chunksFuel_insertBatches hb _ _ _ (Nat.le_refl _)

theorem normalize_spec {cap : Option Nat} {rows : List Row}
    (h : WFRows (sourceRows cap rows)) :
    ∃ NM, normalize cap rows initS = .ok NM ∧
      NormInv (sourceRows cap rows) NM ∧
      NM.relation_t = [] ∧ NM.language_t = [] ∧
      NM.label_t = [] ∧ NM.concept_t = [] ∧
      NM.edge_t = [] := by
  obtain ⟨NM, he, hinv, ht⟩ := normalizeRows_spec (sourceRows cap rows) [] initS h NormInv_init
  exact ⟨NM, he, by simpa using hinv, ht.1, ht.2.1, ht.2.2.1, ht.2.2.2.1, ht.2.2.2.2.1⟩

/-- End-to-end: on well-formed capped input the whole run succeeds, the
normalization pass builds the rank index, and the final store satisfies the
insertion invariant over the entire processed row list. -/
theorem load_spec {cap : Option Nat} {rows : List Row}
    (h : WFRows (sourceRows cap rows)) :
    ∃ NM FS, normalize cap rows initS = .ok NM ∧
      NormInv (sourceRows cap rows) NM ∧
      load_dump_to_db cap rows = .ok FS ∧
      InsInv (sourceRows cap rows) (sourceRows cap rows) FS := by
  obtain ⟨NM, hn, hinv, ht1, ht2, ht3, ht4, ht5⟩ := normalize_spec h
  have hstart := InsInv_start hinv ht1 ht2 ht3 ht4 ht5
  obtain ⟨FS, hir, hfin⟩ :=
    insertRows_spec (sourceRows cap rows) [] (sourceRows cap rows) _ h (by simp) hstart
  refine ⟨NM, FS, hn, hinv, ?_, by simpa using hfin⟩
  unfold load_dump_to_db
  rw [hn]
  show insert 1000000 cap rows NM = Except.ok FS
  rw [insert_eq_insertRows (by omega) cap rows NM]
  exact hir

/-! ### Frame lemmas: the insertion pass never writes the dedup index, the
normalization pass never writes the store -/

theorem insert_relation_frame {uri : String} {st : S} {x : Nat} {st' : S}
    (h : insert_relation uri st = .ok (x, st')) :
    st'.relation_db = st.relation_db ∧ st'.language_db = st.language_db ∧
    st'.label_db = st.label_db ∧ st'.concept_db = st.concept_db := by
  unfold insert_relation at h
  dsimp only at h
  repeat' split at h
  all_goals first
    | (simp only [Except.ok.injEq, Prod.mk.injEq] at h
       obtain ⟨-, h2⟩ := h
       rw [← h2]
       exact ⟨rfl, rfl, rfl, rfl⟩)
    | exact absurd h (by simp)

theorem insert_concept_frame {u : String} {st : S} {x : Nat} {st' : S}
    (h : insert_concept u st = .ok (x, st')) :
    st'.relation_db = st.relation_db ∧ st'.language_db = st.language_db ∧
    st'.label_db = st.label_db ∧ st'.concept_db = st.concept_db := by
  unfold insert_concept at h
  dsimp only at h
  repeat' split at h
  all_goals first
    | (simp only [Except.ok.injEq, Prod.mk.injEq] at h
       obtain ⟨-, h2⟩ := h
       rw [← h2]
       exact ⟨rfl, rfl, rfl, rfl⟩)
    | exact absurd h (by simp)

theorem insert_objects_frame {r : Row} {st st' : S}
    (h : insert_objects_from_edge r st = .ok st') :
    st'.relation_db = st.relation_db ∧ st'.language_db = st.language_db ∧
    st'.label_db = st.label_db ∧ st'.concept_db = st.concept_db := by
  unfold insert_objects_from_edge at h
  repeat' split at h
  all_goals try exact Except.noConfusion h
  rename_i x1 relation_id st₁ hr x2 start_id st₂ hs x3 end_id st₃ he
  simp only [Except.ok.injEq] at h
  obtain ⟨f1, f2, f3, f4⟩ := insert_relation_frame hr
  obtain ⟨g1, g2, g3, g4⟩ := insert_concept_frame hs
  obtain ⟨e1, e2, e3, e4⟩ := insert_concept_frame he
  rw [← h]
  refine ⟨?_, ?_, ?_, ?_⟩
  · show st₃.relation_db = st.relation_db
    rw [e1, g1, f1]
  · show st₃.language_db = st.language_db
    rw [e2, g2, f2]
  · show st₃.label_db = st.label_db
    rw [e3, g3, f3]
  · show st₃.concept_db = st.concept_db
    rw [e4, g4, f4]

theorem insertRows_frame :
    ∀ (Q : List Row) (st st' : S), insertRows st Q = .ok st' →
    st'.relation_db = st.relation_db ∧ st'.language_db = st.language_db ∧
    st'.label_db = st.label_db ∧ st'.concept_db = st.concept_db := by
  intro Q
  induction Q with
  | nil =>
    intro st st' h
    simp only [insertRows, Except.ok.injEq] at h
    rw [← h]
    exact ⟨rfl, rfl, rfl, rfl⟩
  | cons r rs ih =>
    intro st st' h
    rw [insertRows] at h
    cases hr : insert_objects_from_edge r st with
    | error e => rw [hr] at h; exact absurd h (by simp)
    | ok st₁ =>
      rw [hr] at h
      obtain ⟨f1, f2, f3, f4⟩ := insert_objects_frame hr
      obtain ⟨g1, g2, g3, g4⟩ := ih st₁ st' h
      exact ⟨by rw [g1, f1], by rw [g2, f2], by rw [g3, f3], by rw [g4, f4]⟩

theorem insertBatches_frame :
    ∀ (bs : List (List Row)) (st st' : S), insertBatches st bs = .ok st' →
    st'.relation_db = st.relation_db ∧ st'.language_db = st.language_db ∧
    st'.label_db = st.label_db ∧ st'.concept_db = st.concept_db := by
  intro bs
  induction bs with
  | nil =>
    intro st st' h
    simp only [insertBatches, Except.ok.injEq] at h
    rw [← h]
    exact ⟨rfl, rfl, rfl, rfl⟩
  | cons b rest ih =>
    intro st st' h
    rw [insertBatches] at h
    cases hr : insertRows st b with
    | error e => rw [hr] at h; exact absurd h (by simp)
    | ok st₁ =>
      rw [hr] at h
      obtain ⟨f1, f2, f3, f4⟩ := insertRows_frame b st st₁ hr
      obtain ⟨g1, g2, g3, g4⟩ := ih st₁ st' h
      exact ⟨by rw [g1, f1], by rw [g2, f2], by rw [g3, f3], by rw [g4, f4]⟩

theorem insert_frame {b : Nat} {cap : Option Nat} {rows : List Row} {st st' : S}
    (h : insert b cap rows st = .ok st') :
    st'.relation_db = st.relation_db ∧ st'.language_db = st.language_db ∧
    st'.label_db = st.label_db ∧ st'.concept_db = st.concept_db := by
  unfold insert at h
  obtain ⟨f1, f2, f3, f4⟩ := insertBatches_frame _ _ _ h
  exact ⟨f1, f2, f3, f4⟩

theorem normalize_concept_frame {u : String} {st st' : S}
    (h : normalize_concept u st = .ok st') :
    st'.relation_t = st.relation_t ∧ st'.language_t = st.language_t ∧
    st'.label_t = st.label_t ∧ st'.concept_t = st.concept_t ∧
    st'.edge_t = st.edge_t ∧ st'.edge_i = st.edge_i := by
  unfold normalize_concept at h
  dsimp only at h
  repeat' split at h
  all_goals first
    | (simp only [Except.ok.injEq] at h
       rw [← h]
       exact ⟨rfl, rfl, rfl, rfl, rfl, rfl⟩)
    | exact absurd h (by simp)

theorem normalize_edge_frame {r : Row} {st st' : S}
    (h : normalize_edge r st = .ok st') :
    st'.relation_t = st.relation_t ∧ st'.language_t = st.language_t ∧
    st'.label_t = st.label_t ∧ st'.concept_t = st.concept_t ∧
    st'.edge_t = st.edge_t ∧ st'.edge_i = st.edge_i := by
  unfold normalize_edge at h
  cases hs : normalize_concept r.start_uri (normalize_relation r.relation_uri st) with
  | error e => rw [hs] at h; exact absurd h (by simp)
  | ok st₁ =>
    rw [hs] at h
    obtain ⟨f1, f2, f3, f4, f5, f6⟩ := normalize_concept_frame hs
    obtain ⟨g1, g2, g3, g4, g5, g6⟩ := normalize_concept_frame h
    exact ⟨by rw [g1, f1]; rfl, by rw [g2, f2]; rfl, by rw [g3, f3]; rfl,
      by rw [g4, f4]; rfl, by rw [g5, f5]; rfl, by rw [g6, f6]; rfl⟩

theorem normalizeRows_frame :
    ∀ (Q : List Row) (st st' : S), normalizeRows st Q = .ok st' →
    st'.relation_t = st.relation_t ∧ st'.language_t = st.language_t ∧
    st'.label_t = st.label_t ∧ st'.concept_t = st.concept_t ∧
    st'.edge_t = st.edge_t ∧ st'.edge_i = st.edge_i := by
  intro Q
  induction Q with
  | nil =>
    intro st st' h
    simp only [normalizeRows, Except.ok.injEq] at h
    rw [← h]
    exact ⟨rfl, rfl, rfl, rfl, rfl, rfl⟩
  | cons r rs ih =>
    intro st st' h
    rw [normalizeRows] at h
    cases hr : normalize_edge r st with
    | error e => rw [hr] at h; exact absurd h (by simp)
    | ok st₁ =>
      rw [hr] at h
      obtain ⟨f1, f2, f3, f4, f5, f6⟩ := normalize_edge_frame hr
      obtain ⟨g1, g2, g3, g4, g5, g6⟩ := ih st₁ st' h
      exact ⟨by rw [g1, f1], by rw [g2, f2], by rw [g3, f3],
        by rw [g4, f4], by rw [g5, f5], by rw [g6, f6]⟩

theorem normalize_frame {cap : Option Nat} {rows : List Row} {st st' : S}
    (h : normalize cap rows st = .ok st') :
    st'.relation_t = st.relation_t ∧ st'.language_t = st.language_t ∧
    st'.label_t = st.label_t ∧ st'.concept_t = st.concept_t ∧
    st'.edge_t = st.edge_t ∧ st'.edge_i = st.edge_i := by
  unfold normalize at h
  obtain ⟨f1, f2, f3, f4, f5, f6⟩ := normalizeRows_frame _ _ _ h
  exact ⟨f1, f2, f3, f4, f5, f6⟩

/-! ### Identifier splitting: segment structure -/

theorem pySplitAux_zero (sep : Char) :
    ∀ (seg acc : List Char), pySplitAux sep seg 0 acc = [acc.reverse ++ seg] := by
  intro seg
  induction seg with
  | nil => intro acc; simp [pySplitAux]
  | cons c cs ih =>
    intro acc
    rw [pySplitAux, ih]
    simp

theorem pySplitAux_no_sep {sep : Char} :
    ∀ {seg : List Char}, sep ∉ seg → ∀ (n : Nat) (acc : List Char),
      pySplitAux sep seg n acc = [acc.reverse ++ seg] := by
  intro seg
  induction seg with
  | nil => intro _ n acc; simp [pySplitAux]
  | cons c cs ih =>
    intro h n acc
    have hc : ¬ (c = sep) := fun hc => h (hc ▸ List.mem_cons_self _ _)
    have hcs : sep ∉ cs := fun hm => h (List.mem_cons_of_mem _ hm)
    cases n with
    | zero =>
      rw [pySplitAux, ih hcs 0 (c :: acc)]
      simp
    | succ m =>
      rw [pySplitAux, if_neg hc, ih hcs (m + 1) (c :: acc)]
      simp

theorem pySplitAux_seg {sep : Char} :
    ∀ {seg : List Char}, sep ∉ seg → ∀ (rest : List Char) (n : Nat) (acc : List Char),
      pySplitAux sep (seg ++ sep :: rest) (n + 1) acc
        = (acc.reverse ++ seg) :: pySplitAux sep rest n [] := by
  intro seg
  induction seg with
  | nil =>
    intro _ rest n acc
    rw [List.nil_append, pySplitAux, if_pos rfl]
    simp
  | cons c cs ih =>
    intro h rest n acc
    have hc : ¬ (c = sep) := fun hc => h (hc ▸ List.mem_cons_self _ _)
    have hcs : sep ∉ cs := fun hm => h (List.mem_cons_of_mem _ hm)
    rw [List.cons_append, pySplitAux, if_neg hc, ih hcs rest n (c :: acc)]
    simp

theorem pySplitAux_sep_free {sep : Char} :
    ∀ (l : List Char) (n : Nat) (acc : List Char), sep ∉ acc →
      ∀ (i : Nat) (x : List Char), i < n → (pySplitAux sep l n acc)[i]? = some x →
        sep ∉ x := by
  intro l
  induction l with
  | nil =>
    intro n acc hacc i x _ hget
    simp only [pySplitAux] at hget
    cases i with
    | zero =>
      simp only [List.getElem?_cons_zero, Option.some.injEq] at hget
      rw [← hget]
      simpa using hacc
    | succ j => simp at hget
  | cons c cs ih =>
    intro n acc hacc i x hi hget
    cases n with
    | zero => omega
    | succ m =>
      by_cases hc : c = sep
      · rw [pySplitAux, if_pos hc] at hget
        cases i with
        | zero =>
          simp only [List.getElem?_cons_zero, Option.some.injEq] at hget
          rw [← hget]
          simpa using hacc
        | succ j =>
          rw [List.getElem?_cons_succ] at hget
          exact ih m [] (by simp) j x (by omega) hget
      · rw [pySplitAux, if_neg hc] at hget
        have hacc' : sep ∉ c :: acc := by
          simp only [List.mem_cons]
          rintro (hcc | hcc)
          · exact hc hcc.symm
          · exact hacc hcc
        exact ih (m + 1) (c :: acc) hacc' i x hi hget

/-- A string is its character list (structure eta). -/
theorem string_mk_data (s : String) : String.mk s.data = s := rfl

theorem string_data_inj {s t : String} (h : s.data = t.data) : s = t := by
  have h2 := congrArg String.mk h
  rwa [string_mk_data, string_mk_data] at h2

/-- The language and label segments of a well-formed concept identifier
contain no `/`. -/
theorem lang_label_sep_free {u lb tb : String}
    (h : language_and_label_in_bytes u = some (lb, tb)) :
    ('/' : Char) ∉ lb.data ∧ ('/' : Char) ∉ tb.data := by
  unfold language_and_label_in_bytes at h
  split at h
  · rename_i a b x2 x3 rest heq
    simp only [Option.some.injEq, Prod.mk.injEq] at h
    obtain ⟨h1, h2⟩ := h
    have hx2 : (pySplitAux '/' u.data 4 [])[2]? = some x2 := by
      rw [show pySplitAux '/' u.data 4 [] = a :: b :: x2 :: x3 :: rest from heq]
      simp
    have hx3 : (pySplitAux '/' u.data 4 [])[3]? = some x3 := by
      rw [show pySplitAux '/' u.data 4 [] = a :: b :: x2 :: x3 :: rest from heq]
      simp
    have f2 := pySplitAux_sep_free u.data 4 [] (by simp) 2 x2 (by omega) hx2
    have f3 := pySplitAux_sep_free u.data 4 [] (by simp) 3 x3 (by omega) hx3
    constructor
    · rw [← h1]
      exact f2
    · rw [← h2]
      exact f3
  · exact Option.noConfusion h

theorem chars_slash_inj {sep : Char} :
    ∀ {a : List Char} {b c d : List Char}, sep ∉ a → sep ∉ c →
      a ++ sep :: b = c ++ sep :: d → a = c ∧ b = d := by
  intro a
  induction a with
  | nil =>
    intro b c d _ hc h
    cases c with
    | nil => simpa using h
    | cons x xs =>
      simp only [List.nil_append, List.cons_append, List.cons.injEq] at h
      exact absurd (h.1 ▸ List.mem_cons_self x xs) hc
  | cons y ys ih =>
    intro b c d ha hc h
    cases c with
    | nil =>
      simp only [List.cons_append, List.nil_append, List.cons.injEq] at h
      exact absurd (h.1.symm ▸ List.mem_cons_self y ys) ha
    | cons x xs =>
      simp only [List.cons_append, List.cons.injEq] at h
      obtain ⟨rfl, h2⟩ := h
      have hys : sep ∉ ys := fun hm => ha (List.mem_cons_of_mem _ hm)
      have hxs : sep ∉ xs := fun hm => hc (List.mem_cons_of_mem _ hm)
      obtain ⟨e1, e2⟩ := ih hys hxs h2
      exact ⟨by rw [e1], e2⟩

theorem append_slash_inj {t1 l1 t2 l2 : String}
    (h1 : ('/' : Char) ∉ t1.data) (h2 : ('/' : Char) ∉ t2.data)
    (h : t1 ++ "/" ++ l1 = t2 ++ "/" ++ l2) : t1 = t2 ∧ l1 = l2 := by
  have hd := congrArg String.data h
  have hshape : ∀ (t l : String), (t ++ "/" ++ l).data = t.data ++ '/' :: l.data := by
    intro t l
    rw [String.data_append, String.data_append]
    show t.data ++ ['/'] ++ l.data = _
    simp
  rw [hshape, hshape] at hd
  obtain ⟨e1, e2⟩ := chars_slash_inj h1 h2 hd
  exact ⟨string_data_inj e1, string_data_inj e2⟩

/-- Two well-formed concept identifiers with the same label key agree on
label text and language key. -/
theorem labKeyT_inj {u v : String}
    (hu : (language_and_label_in_bytes u).isSome = true)
    (hv : (language_and_label_in_bytes v).isSome = true)
    (h : labKeyT u = labKeyT v) :
    labelTextT u = labelTextT v ∧ langKeyT u = langKeyT v := by
  obtain ⟨⟨lbu, tbu⟩, hsu⟩ : ∃ p, language_and_label_in_bytes u = some p := by
    cases hx : language_and_label_in_bytes u
    · rw [hx] at hu; simp at hu
    · exact ⟨_, rfl⟩
  obtain ⟨⟨lbv, tbv⟩, hsv⟩ : ∃ p, language_and_label_in_bytes v = some p := by
    cases hx : language_and_label_in_bytes v
    · rw [hx] at hv; simp at hv
    · exact ⟨_, rfl⟩
  have hfu := lang_label_sep_free hsu
  have hfv := lang_label_sep_free hsv
  rw [labKeyT, labKeyT, labelTextT_eq hsu, labelTextT_eq hsv,
    langKeyT_eq hsu, langKeyT_eq hsv] at h
  obtain ⟨e1, e2⟩ := append_slash_inj hfu.2 hfv.2 h
  rw [labelTextT_eq hsu, labelTextT_eq hsv, langKeyT_eq hsu, langKeyT_eq hsv]
  exact ⟨e1, e2⟩

/-! ### Decomposing canonical concept identifiers -/

theorem data_mk_empty (language text : String) :
    (mkConceptUri language text "").data
      = '/' :: 'c' :: '/' :: (language.data ++ '/' :: text.data) := by
  unfold mkConceptUri
  rw [if_pos rfl]
  rw [String.data_append, String.data_append, String.data_append, String.data_append]
  show ['/', 'c', '/'] ++ language.data ++ ['/'] ++ text.data ++ [] = _
  simp

theorem data_mk_sense (language text sense : String) (hs : sense ≠ "") :
    (mkConceptUri language text sense).data
      = '/' :: 'c' :: '/' ::
          (language.data ++ '/' :: (text.data ++ '/' :: sense.data)) := by
  unfold mkConceptUri
  rw [if_neg hs]
  rw [String.data_append, String.data_append, String.data_append,
    String.data_append, String.data_append]
  show ['/', 'c', '/'] ++ language.data ++ ['/'] ++ text.data ++ (['/'] ++ sense.data) = _
  simp

theorem split_mk_empty (language text : String)
    (hl : ('/' : Char) ∉ language.data) (ht : ('/' : Char) ∉ text.data) :
    splitSlash4 (mkConceptUri language text "")
      = [[], ['c'], language.data, text.data] := by
  unfold splitSlash4 pySplit
  rw [data_mk_empty]
  show [] :: ['c'] :: pySplitAux '/' (language.data ++ '/' :: text.data) (1 + 1) [] = _
  rw [pySplitAux_seg hl, pySplitAux_no_sep ht]
  simp

theorem split_mk_sense (language text sense : String)
    (hl : ('/' : Char) ∉ language.data) (ht : ('/' : Char) ∉ text.data)
    (hs : sense ≠ "") :
    splitSlash4 (mkConceptUri language text sense)
      = [[], ['c'], language.data, text.data, sense.data] := by
  unfold splitSlash4 pySplit
  rw [data_mk_sense language text sense hs]
  show [] :: ['c'] ::
      pySplitAux '/' (language.data ++ '/' :: (text.data ++ '/' :: sense.data)) (1 + 1) [] = _
  rw [pySplitAux_seg hl]
  have e2 : pySplitAux '/' (text.data ++ '/' :: sense.data) 1 []
      = text.data :: pySplitAux '/' sense.data 0 [] := by
    have h := pySplitAux_seg ht sense.data 0 ([] : List Char)
    simpa using h
  rw [e2, pySplitAux_zero]
  simp

theorem conceptTriple_mk (language text sense : String)
    (hl : ('/' : Char) ∉ language.data) (ht : ('/' : Char) ∉ text.data) :
    conceptTriple (mkConceptUri language text sense)
      = some (language, text, sense) := by
  by_cases hs : sense = ""
  · subst hs
    have hsplit := split_mk_empty language text hl ht
    unfold conceptTriple language_and_label_in_bytes sense_label_of
    rw [hsplit]
  · have hsplit := split_mk_sense language text sense hl ht hs
    unfold conceptTriple language_and_label_in_bytes sense_label_of
    rw [hsplit]

/-! ### The final path segment of an identifier -/

theorem lastSegAux_no_sep :
    ∀ {l : List Char}, ('/' : Char) ∉ l →
      ∀ cur, lastSegAux cur l = cur.reverse ++ l := by
  intro l
  induction l with
  | nil => intro _ cur; simp [lastSegAux]
  | cons c cs ih =>
    intro h cur
    have hc : ¬ (c = '/') := fun hc => h (hc ▸ List.mem_cons_self _ _)
    rw [lastSegAux, if_neg hc, ih (fun hm => h (List.mem_cons_of_mem _ hm)) (c :: cur)]
    simp

/-! ### Abort behavior on malformed concept identifiers -/

theorem normalizeRows_append (a b : List Row) :
    ∀ st, normalizeRows st (a ++ b)
      = match normalizeRows st a with
        | .error e => .error e
        | .ok st' => normalizeRows st' b := by
  induction a with
  | nil =>
    intro st
    simp [normalizeRows]
  | cons r rs ih =>
    intro st
    cases h : normalize_edge r st with
    | error e => simp [normalizeRows, h]
    | ok st' => simp [normalizeRows, h, ih st']

theorem normalize_concept_malformed {u : String} {st : S}
    (h : ¬ (language_and_label_in_bytes u).isSome = true) :
    normalize_concept u st = .error (.malformed u) := by
  unfold normalize_concept
  cases hx : language_and_label_in_bytes u with
  | none => rfl
  | some p => exact absurd (by rw [hx]; rfl) h

theorem normalize_concept_wf {u : String} (st : S)
    (h : (language_and_label_in_bytes u).isSome = true) :
    ∃ st', normalize_concept u st = .ok st' := by
  unfold normalize_concept
  cases hx : language_and_label_in_bytes u with
  | none => rw [hx] at h; simp at h
  | some p =>
    obtain ⟨lb, tb⟩ := p
    exact ⟨_, rfl⟩

/-! ### Resolving a foreign key to its table row -/

/-- Looking up position `id - 1` of an entity table (the row the store's
auto-assigned primary key `id` denotes) returns the row of some identifier
with the same canonical key. -/
theorem resolve_getElem {α : Type} {f : String → String} (g : String → α)
    {L : List String} {u : String} (hu : u ∈ L) :
    ∃ v, ((firstBy f [] L).map g)[idOfBy f L u - 1]? = some (g v) ∧
      f v = f u ∧ v ∈ L := by
  have hk : f u ∈ (firstBy f [] L).map f :=
    (firstBy_mem_map L).mpr ⟨by simp, List.mem_map_of_mem f hu⟩
  obtain ⟨i, hi⟩ := rankIn_isSome hk
  have hid : idOfBy f L u = i := by
    unfold idOfBy
    rw [hi]
    rfl
  have hget := rankIn_getElem hi
  rw [List.getElem?_map] at hget
  cases hA : (firstBy f [] L)[i - 1]? with
  | none =>
    rw [hA] at hget
    simp at hget
  | some v =>
    rw [hA] at hget
    simp only [Option.map_some', Option.some.injEq] at hget
    refine ⟨v, ?_, hget, ?_⟩
    · rw [hid, List.getElem?_map, hA]
      rfl
    · exact firstBy_mem_sub (List.getElem?_mem hA)

theorem mem_CU_start {RR : List Row} {r : Row} (h : r ∈ RR) :
    r.start_uri ∈ CU RR := by
  induction RR with
  | nil => simp at h
  | cons q rs ih =>
    rcases List.mem_cons.mp h with rfl | h'
    · exact List.mem_cons_self _ _
    · exact List.mem_cons_of_mem _ (List.mem_cons_of_mem _ (ih h'))

theorem mem_CU_end {RR : List Row} {r : Row} (h : r ∈ RR) :
    r.end_uri ∈ CU RR := by
  induction RR with
  | nil => simp at h
  | cons q rs ih =>
    rcases List.mem_cons.mp h with rfl | h'
    · exact List.mem_cons_of_mem _ (List.mem_cons_self _ _)
    · exact List.mem_cons_of_mem _ (List.mem_cons_of_mem _ (ih h'))

theorem mem_RU {RR : List Row} {r : Row} (h : r ∈ RR) :
    r.relation_uri ∈ RU RR :=
  List.mem_map_of_mem _ h

theorem CU_mem_wf {RR : List Row} (h : WFRows RR) :
    ∀ {u : String}, u ∈ CU RR → (language_and_label_in_bytes u).isSome = true := by
  induction RR with
  | nil => intro u hu; simp [CU] at hu
  | cons r rs ih =>
    intro u hu
    rcases List.mem_cons.mp hu with rfl | hu'
    · exact (h r (List.mem_cons_self _ _)).1
    · rcases List.mem_cons.mp hu' with rfl | hu''
      · exact (h r (List.mem_cons_self _ _)).2
      · exact ih (fun x hx => h x (List.mem_cons_of_mem _ hx)) hu''

theorem idOfBy_congr {f : String → String} (L : List String) {u v : String}
    (h : f u = f v) : idOfBy f L u = idOfBy f L v := by
  unfold idOfBy
  rw [h]

theorem normalize_edge_malformed {r : Row} (hr : ¬ rowWF r) (st : S) :
    (¬ (language_and_label_in_bytes r.start_uri).isSome = true ∧
      normalize_edge r st = .error (.malformed r.start_uri)) ∨
    ((language_and_label_in_bytes r.start_uri).isSome = true ∧
      normalize_edge r st = .error (.malformed r.end_uri)) := by
  by_cases hstart : (language_and_label_in_bytes r.start_uri).isSome = true
  · have hend : ¬ (language_and_label_in_bytes r.end_uri).isSome = true :=
      fun he => hr ⟨hstart, he⟩
    refine Or.inr ⟨hstart, ?_⟩
    unfold normalize_edge
    obtain ⟨st₁, h₁⟩ := normalize_concept_wf (normalize_relation r.relation_uri st) hstart
    rw [h₁]
    exact normalize_concept_malformed hend
  · refine Or.inl ⟨hstart, ?_⟩
    unfold normalize_edge
    rw [normalize_concept_malformed hstart]

theorem firstBy_length_card (f : String → String) (L : List String) :
    (firstBy f [] L).length = (L.map f).toFinset.card := by
  have hnd : ((firstBy f [] L).map f).Nodup := firstBy_map_nodup f [] L
  have hfs : ((firstBy f [] L).map f).toFinset = (L.map f).toFinset := by
    apply Finset.ext
    intro a
    simp only [List.mem_toFinset]
    rw [firstBy_mem_map L]
    simp
  calc (firstBy f [] L).length
      = ((firstBy f [] L).map f).length := by rw [List.length_map]
    _ = ((firstBy f [] L).map f).toFinset.card := (List.toFinset_card_of_nodup hnd).symm
    _ = (L.map f).toFinset.card := by rw [hfs]

/-! ### The claims -/

/-- C1: During the Insertion Pass, for every row and each of the four
namespaces, the id retrieved from the Dedup Index for the identifier at any
position of the namespace's processing sequence equals the running counter
at that point (one past the number of distinct keys already seen) exactly
when this is the first position whose key maps to that id; consequently one
entity insert is emitted per first sight, and across the whole dump each
entity table holds exactly one row per distinct canonical key. -/
theorem c1_one_insert_per_distinct_key (cap : Option Nat) (rows : List Row)
    (hWF : WFRows (sourceRows cap rows)) :
    (∀ ns : Ns, ∀ L1 L2 : List String, ∀ u : String,
        nsUris ns (sourceRows cap rows) = L1 ++ u :: L2 →
          (idOfBy (nsKeyFn ns) (nsUris ns (sourceRows cap rows)) u
              = (firstBy (nsKeyFn ns) [] L1).length + 1
            ↔ nsKeyFn ns u ∉ L1.map (nsKeyFn ns))) ∧
    ∃ st, load_dump_to_db cap rows = .ok st ∧
      ∀ ns : Ns, nsTableLen ns st = (nsKeySeq ns (sourceRows cap rows)).toFinset.card := by
  constructor
  · intro ns L1 L2 u hdec
    rw [hdec]
    unfold idOfBy
    by_cases hnew : nsKeyFn ns u ∈ L1.map (nsKeyFn ns)
    · obtain ⟨i, hi, hle⟩ := rank_full_of_seen L2 hnew
      rw [hi]
      simp only [Option.getD_some]
      refine iff_of_false ?_ (fun hcc => hcc hnew)
      omega
    · rw [rank_full_of_new L2 hnew]
      simp [hnew]
  · obtain ⟨NM, FS, hn, hninv, hl, hins⟩ := load_spec hWF
    obtain ⟨_, _, _, _, _, _, _, _, ht1, ht2, ht3, ht4, _, _⟩ := hins
    refine ⟨FS, hl, ?_⟩
    intro ns
    cases ns
    · show FS.relation_t.length = _
      rw [ht1, List.length_map, firstBy_length_card]
      rfl
    · show FS.language_t.length = _
      rw [ht2, List.length_map, firstBy_length_card]
      rfl
    · show FS.label_t.length = _
      rw [ht3, List.length_map, firstBy_length_card]
      rfl
    · show FS.concept_t.length = _
      rw [ht4, List.length_map, firstBy_length_card]
      rfl

/-- C1 witness at a concrete three-row dump. -/
theorem c1_witness :
    (∀ ns : Ns, ∀ L1 L2 : List String, ∀ u : String,
        nsUris ns (sourceRows none
            [⟨"/r/IsA", "/c/en/a", "/c/en/b", "m1"⟩,
             ⟨"/r/IsA", "/c/en/a", "/c/fr/x", "m2"⟩,
             ⟨"/r/PartOf", "/c/en/b", "/c/en/a", "m3"⟩]) = L1 ++ u :: L2 →
          (idOfBy (nsKeyFn ns) (nsUris ns (sourceRows none
              [⟨"/r/IsA", "/c/en/a", "/c/en/b", "m1"⟩,
               ⟨"/r/IsA", "/c/en/a", "/c/fr/x", "m2"⟩,
               ⟨"/r/PartOf", "/c/en/b", "/c/en/a", "m3"⟩])) u
              = (firstBy (nsKeyFn ns) [] L1).length + 1
            ↔ nsKeyFn ns u ∉ L1.map (nsKeyFn ns))) ∧
    ∃ st, load_dump_to_db none
        [⟨"/r/IsA", "/c/en/a", "/c/en/b", "m1"⟩,
         ⟨"/r/IsA", "/c/en/a", "/c/fr/x", "m2"⟩,
         ⟨"/r/PartOf", "/c/en/b", "/c/en/a", "m3"⟩] = .ok st ∧
      ∀ ns : Ns, nsTableLen ns st = (nsKeySeq ns (sourceRows none
          [⟨"/r/IsA", "/c/en/a", "/c/en/b", "m1"⟩,
           ⟨"/r/IsA", "/c/en/a", "/c/fr/x", "m2"⟩,
           ⟨"/r/PartOf", "/c/en/b", "/c/en/a", "m3"⟩])).toFinset.card :=
  c1_one_insert_per_distinct_key none
    [⟨"/r/IsA", "/c/en/a", "/c/en/b", "m1"⟩,
     ⟨"/r/IsA", "/c/en/a", "/c/fr/x", "m2"⟩,
     ⟨"/r/PartOf", "/c/en/b", "/c/en/a", "m3"⟩] (by decide)

/-- C2: after the Normalization Pass, in every namespace the dedup index
maps each key to the 1-based rank of its first occurrence (strictly
increasing assignment in first-occurrence order), the assigned ids are
exactly 1..n with n the number of distinct keys (no gaps), each key has at
most one id since the index is a map, and the Insertion Pass leaves every
mapping unchanged. -/
theorem c2_index_invariant (cap : Option Nat) (rows : List Row)
    (hWF : WFRows (sourceRows cap rows)) :
    ∃ NM, normalize cap rows initS = .ok NM ∧
      ∀ ns : Ns,
        (∀ k i, alookup (nsMap ns NM) k = some i ↔
          rankIn (FO ns (sourceRows cap rows)) k = some i) ∧
        (FO ns (sourceRows cap rows)).Nodup ∧
        (∀ i, (∃ k, alookup (nsMap ns NM) k = some i) ↔
          (1 ≤ i ∧ i ≤ (nsKeySeq ns (sourceRows cap rows)).toFinset.card)) ∧
        (∀ b st', insert b cap rows NM = .ok st' → nsMap ns st' = nsMap ns NM) := by
  obtain ⟨NM, hn, hinv, _, _, _, _, _⟩ := normalize_spec hWF
  obtain ⟨⟨hm1, _⟩, ⟨hm2, _⟩, ⟨hm3, _⟩, ⟨hm4, _⟩⟩ := hinv
  refine ⟨NM, hn, ?_⟩
  intro ns
  have hm : ∀ k, alookup (nsMap ns NM) k
      = rankIn (FO ns (sourceRows cap rows)) k := by
    cases ns
    · exact hm1
    · exact hm2
    · exact hm3
    · exact hm4
  have hnd : (FO ns (sourceRows cap rows)).Nodup := by
    cases ns <;> exact firstBy_map_nodup _ _ _
  have hlen : (FO ns (sourceRows cap rows)).length
      = (nsKeySeq ns (sourceRows cap rows)).toFinset.card := by
    cases ns <;>
      (show ((firstBy _ [] _).map _).length = _
       rw [List.length_map, firstBy_length_card]
       rfl)
  refine ⟨fun k i => by rw [hm k], hnd, ?_, ?_⟩
  · intro i
    constructor
    · rintro ⟨k, hk⟩
      rw [hm k] at hk
      have hb := rankIn_bounds hk
      exact ⟨hb.1, hlen ▸ hb.2⟩
    · rintro ⟨h1, h2⟩
      rw [← hlen] at h2
      have hj : i - 1 < (FO ns (sourceRows cap rows)).length := by omega
      refine ⟨(FO ns (sourceRows cap rows)).get ⟨i - 1, hj⟩, ?_⟩
      rw [hm]
      have hr := rankIn_of_nodup_getElem hnd hj
      rw [show i - 1 + 1 = i from by omega] at hr
      exact hr
  · intro b st' hins
    obtain ⟨f1, f2, f3, f4⟩ := insert_frame hins
    cases ns
    · exact f1
    · exact f2
    · exact f3
    · exact f4

/-- C2 witness at a concrete two-row dump. -/
theorem c2_witness :
    ∃ NM, normalize none
        [⟨"/r/IsA", "/c/en/cat", "/c/en/animal", "w1"⟩,
         ⟨"/r/Synonym", "/c/en/cat", "/c/fr/chat", "w2"⟩] initS = .ok NM ∧
      ∀ ns : Ns,
        (∀ k i, alookup (nsMap ns NM) k = some i ↔
          rankIn (FO ns (sourceRows none
            [⟨"/r/IsA", "/c/en/cat", "/c/en/animal", "w1"⟩,
             ⟨"/r/Synonym", "/c/en/cat", "/c/fr/chat", "w2"⟩])) k = some i) ∧
        (FO ns (sourceRows none
            [⟨"/r/IsA", "/c/en/cat", "/c/en/animal", "w1"⟩,
             ⟨"/r/Synonym", "/c/en/cat", "/c/fr/chat", "w2"⟩])).Nodup ∧
        (∀ i, (∃ k, alookup (nsMap ns NM) k = some i) ↔
          (1 ≤ i ∧ i ≤ (nsKeySeq ns (sourceRows none
            [⟨"/r/IsA", "/c/en/cat", "/c/en/animal", "w1"⟩,
             ⟨"/r/Synonym", "/c/en/cat", "/c/fr/chat", "w2"⟩])).toFinset.card)) ∧
        (∀ b st', insert b none
            [⟨"/r/IsA", "/c/en/cat", "/c/en/animal", "w1"⟩,
             ⟨"/r/Synonym", "/c/en/cat", "/c/fr/chat", "w2"⟩] NM = .ok st' →
          nsMap ns st' = nsMap ns NM) :=
  c2_index_invariant none
    [⟨"/r/IsA", "/c/en/cat", "/c/en/animal", "w1"⟩,
     ⟨"/r/Synonym", "/c/en/cat", "/c/fr/chat", "w2"⟩] (by decide)

/-- C3: one edge row is inserted unconditionally per processed input row
(respecting the row cap), with no deduplication — the edge-table length
equals the processed row count even when rows repeat verbatim. -/
theorem c3_edge_per_row (cap : Option Nat) (rows : List Row)
    (hWF : WFRows (sourceRows cap rows)) :
    ∃ st, load_dump_to_db cap rows = .ok st ∧
      st.edge_t.length = (sourceRows cap rows).length := by
  obtain ⟨NM, FS, _, _, hl, hins⟩ := load_spec hWF
  obtain ⟨_, _, _, _, _, _, _, _, _, _, _, _, hge, _⟩ := hins
  exact ⟨FS, hl, by rw [hge, List.length_map]⟩

/-- C3 witness: two identical rows still produce two edge rows. -/
theorem c3_witness :
    ∃ st, load_dump_to_db none
        [⟨"/r/IsA", "/c/en/dog", "/c/en/animal", "e"⟩,
         ⟨"/r/IsA", "/c/en/dog", "/c/en/animal", "e"⟩] = .ok st ∧
      st.edge_t.length = (sourceRows none
        [⟨"/r/IsA", "/c/en/dog", "/c/en/animal", "e"⟩,
         ⟨"/r/IsA", "/c/en/dog", "/c/en/animal", "e"⟩]).length :=
  c3_edge_per_row none
    [⟨"/r/IsA", "/c/en/dog", "/c/en/animal", "e"⟩,
     ⟨"/r/IsA", "/c/en/dog", "/c/en/animal", "e"⟩] (by decide)

/-- C4 counterexample: the identifiers `/c/en/a` and `/c/en/a/` decompose
to the same (language, label, sense) triple yet are distinct full-identifier
keys, and ingesting a row that uses both yields two Concept rows for one
(label, sense) pair — so "keys equal iff triples equal" and "one Concept
row per distinct (label, sense)" both fail for arbitrary identifiers. -/
theorem c4_counterexample :
    conceptTriple "/c/en/a" = conceptTriple "/c/en/a/" ∧
    ("/c/en/a" : String) ≠ "/c/en/a/" ∧
    ∃ st, load_dump_to_db none
        [⟨"/r/IsA", "/c/en/a", "/c/en/a/", "x"⟩] = .ok st ∧
      st.concept_t.length = 2 := by
  refine ⟨by decide, by decide, ⟨_, rfl, ?_⟩⟩
  decide

/-- C4 (amended): restricted to canonical concept identifiers
`/c/{language}/{text}[/{sense}]` whose language and text segments contain no
`/` and whose sense segment is omitted when empty, the full-identifier key
determines and is determined by the decomposed triple: decomposition
recovers the triple, two canonical identifiers are equal iff their triples
are equal, and over a dump whose concept identifiers are all canonical the
Concept table holds exactly one row per distinct triple. -/
theorem c4_canonical_key_equivalence :
    (∀ l1 t1 s1 l2 t2 s2 : String,
      ('/' : Char) ∉ l1.data → ('/' : Char) ∉ t1.data →
      ('/' : Char) ∉ l2.data → ('/' : Char) ∉ t2.data →
      conceptTriple (mkConceptUri l1 t1 s1) = some (l1, t1, s1) ∧
      (mkConceptUri l1 t1 s1 = mkConceptUri l2 t2 s2 ↔
        (l1 = l2 ∧ t1 = t2 ∧ s1 = s2))) ∧
    (∀ (cap : Option Nat) (rows : List Row),
      WFRows (sourceRows cap rows) →
      (∀ u ∈ CU (sourceRows cap rows), ∃ l t s,
        ('/' : Char) ∉ l.data ∧ ('/' : Char) ∉ t.data ∧ u = mkConceptUri l t s) →
      ∃ st, load_dump_to_db cap rows = .ok st ∧
        st.concept_t.length
          = ((CU (sourceRows cap rows)).map conceptTriple).toFinset.card) := by
  constructor
  · intro l1 t1 s1 l2 t2 s2 h1 h2 h3 h4
    refine ⟨conceptTriple_mk l1 t1 s1 h1 h2, ?_, ?_⟩
    · intro h
      have hc := congrArg conceptTriple h
      rw [conceptTriple_mk l1 t1 s1 h1 h2, conceptTriple_mk l2 t2 s2 h3 h4] at hc
      simp only [Option.some.injEq, Prod.mk.injEq] at hc
      exact ⟨hc.1, hc.2.1, hc.2.2⟩
    · rintro ⟨rfl, rfl, rfl⟩
      rfl
  · intro cap rows hWF hcanon
    obtain ⟨NM, FS, _, _, hl, hins⟩ := load_spec hWF
    obtain ⟨_, _, _, _, _, _, _, _, _, _, _, ht4, _, _⟩ := hins
    refine ⟨FS, hl, ?_⟩
    have hmapid : (CU (sourceRows cap rows)).map conKeyT = CU (sourceRows cap rows) := by
      show List.map (fun u => u) _ = _
      exact List.map_id' _
    have hinj : Set.InjOn conceptTriple ↑(CU (sourceRows cap rows)).toFinset := by
      intro u hu v hv heq
      rw [Finset.mem_coe, List.mem_toFinset] at hu hv
      obtain ⟨lu, tu, su, hlu, htu, rfl⟩ := hcanon u hu
      obtain ⟨lv, tv, sv, hlv, htv, rfl⟩ := hcanon v hv
      rw [conceptTriple_mk lu tu su hlu htu, conceptTriple_mk lv tv sv hlv htv] at heq
      simp only [Option.some.injEq, Prod.mk.injEq] at heq
      rw [heq.1, heq.2.1, heq.2.2]
    have himg : ((CU (sourceRows cap rows)).map conceptTriple).toFinset
        = Finset.image conceptTriple (CU (sourceRows cap rows)).toFinset := by
      apply Finset.ext
      intro a
      simp [List.mem_toFinset, Finset.mem_image, List.mem_map]
    rw [ht4, List.length_map, firstBy_length_card, hmapid, himg,
      Finset.card_image_of_injOn hinj]

/-- C4 witness for the amended claim: a canonical-identifier dump where two
spellings of the same concept key collapse to one row. -/
theorem c4_witness :
    ('/' : Char) ∉ ("en" : String).data ∧ ('/' : Char) ∉ ("cat" : String).data ∧
    (conceptTriple (mkConceptUri "en" "cat" "n") = some ("en", "cat", "n") ∧
      (mkConceptUri "en" "cat" "n" = mkConceptUri "en" "cat" "" ↔
        (("en" : String) = "en" ∧ ("cat" : String) = "cat" ∧ ("n" : String) = ""))) :=
  ⟨by decide, by decide,
    c4_canonical_key_equivalence.1 "en" "cat" "n" "en" "cat" ""
      (by decide) (by decide) (by decide) (by decide)⟩

/-- C5: the stored relation name is the snake-cased final path segment of
the relation identifier; for identifiers of the documented `/r/<Name>` form
(no further `/` in the name), snake-casing the final segment coincides with
the code's "drop the first three characters, then snake-case". -/
theorem c5_relation_name (name : String) (h : ('/' : Char) ∉ name.data) :
    relation_in_bytes ("/r/" ++ name)
        = _to_snake_case (lastSegment ("/r/" ++ name)) ∧
    relation_in_bytes ("/r/" ++ name) = _to_snake_case name := by
  have hdata : ("/r/" ++ name).data = '/' :: 'r' :: '/' :: name.data := by
    rw [String.data_append]
    rfl
  have hlast : lastSegment ("/r/" ++ name) = name := by
    unfold lastSegment
    rw [hdata]
    show String.mk (lastSegAux [] name.data) = name
    rw [lastSegAux_no_sep h]
    show String.mk name.data = name
    rw [string_mk_data]
  have hrb : relation_in_bytes ("/r/" ++ name) = _to_snake_case name := by
    unfold relation_in_bytes extract_relation_name
    rw [hdata]
    show _to_snake_case (String.mk name.data) = _
    rw [string_mk_data]
  exact ⟨by rw [hrb, hlast], hrb⟩

/-- C5 witness at the relation identifier `/r/EtymologicallyRelatedTo`. -/
theorem c5_witness :
    ('/' : Char) ∉ ("EtymologicallyRelatedTo" : String).data ∧
    relation_in_bytes ("/r/" ++ "EtymologicallyRelatedTo")
        = _to_snake_case (lastSegment ("/r/" ++ "EtymologicallyRelatedTo")) ∧
    relation_in_bytes ("/r/" ++ "EtymologicallyRelatedTo")
        = _to_snake_case "EtymologicallyRelatedTo" :=
  ⟨by decide, c5_relation_name "EtymologicallyRelatedTo" (by decide)⟩

/-- C6 counterexample: the relation identifier `"x"` splits into a single
segment — fewer than the minimum expected for a relation identifier — yet
the run succeeds, inserting a relation named after snake-casing the empty
remainder; malformed relation identifiers are never rejected, contradicting
the claim that any under-segmented relation or concept identifier aborts
the run. -/
theorem c6_counterexample :
    (splitSlash4 "x").length = 1 ∧
    ∃ st, load_dump_to_db none [⟨"x", "/c/en/a", "/c/en/b", "m"⟩] = .ok st ∧
      st.relation_t = [""] := by
  refine ⟨by decide, ⟨_, rfl, ?_⟩⟩
  decide

/-- C6 (amended): only malformed *concept* identifiers abort the run: if
every row before `r` is well-formed and one of `r`'s concept identifiers
does not split into at least four segments, the whole run fails with a
malformed-identifier error for that very identifier, regardless of what
follows `r` — no row is skipped and no later row is processed.  (Relation
identifiers are never validated.) -/
theorem c6_malformed_concept_aborts (P : List Row) (r : Row)
    (hP : WFRows P) (hr : ¬ rowWF r) :
    ∃ u, (u = r.start_uri ∨ u = r.end_uri) ∧
      ∀ Q, load_dump_to_db none (P ++ r :: Q) = .error (.malformed u) := by
  obtain ⟨stP, hPrun, _, _⟩ := normalizeRows_spec P [] initS hP NormInv_init
  rcases normalize_edge_malformed hr stP with ⟨hs, hedge⟩ | ⟨hs, hedge⟩
  · refine ⟨r.start_uri, Or.inl rfl, ?_⟩
    intro Q
    have hnorm : normalize none (P ++ r :: Q) initS
        = .error (.malformed r.start_uri) := by
      unfold normalize
      show normalizeRows initS (P ++ r :: Q) = _
      rw [normalizeRows_append, hPrun]
      show normalizeRows stP (r :: Q) = _
      rw [normalizeRows, hedge]
    unfold load_dump_to_db
    rw [hnorm]
  · refine ⟨r.end_uri, Or.inr rfl, ?_⟩
    intro Q
    have hnorm : normalize none (P ++ r :: Q) initS
        = .error (.malformed r.end_uri) := by
      unfold normalize
      show normalizeRows initS (P ++ r :: Q) = _
      rw [normalizeRows_append, hPrun]
      show normalizeRows stP (r :: Q) = _
      rw [normalizeRows, hedge]
    unfold load_dump_to_db
    rw [hnorm]

/-- C6 witness: a concrete malformed start concept identifier aborts the
run whatever rows follow. -/
theorem c6_witness :
    ∃ u, (u = ("/c/en" : String) ∨ u = ("/c/en/b" : String)) ∧
      ∀ Q, load_dump_to_db none ([] ++ ⟨"/r/IsA", "/c/en", "/c/en/b", "m"⟩ :: Q)
        = .error (.malformed u) :=
  c6_malformed_concept_aborts [] ⟨"/r/IsA", "/c/en", "/c/en/b", "m"⟩
    (by decide) (by decide)

/-- C7: the row cap reads exactly the first N rows of the source in order,
and the whole run with cap N is identical (same result state, hence the
same entity and edge counts) to an uncapped run over the source truncated
to its first N rows. -/
theorem c7_row_cap (n : Nat) (rows : List Row) :
    sourceRows (some n) rows = rows.take n ∧
    load_dump_to_db (some n) rows = load_dump_to_db none (rows.take n) :=
  ⟨rfl, rfl⟩

/-- C8: the insertion pass with batch size 1 and with batch size 1,000,000
produces the same outcome — identical final contents in all five tables
(indeed, identical full states). -/
theorem c8_batch_size_invisible (cap : Option Nat) (rows : List Row) (st : S) :
    insert 1 cap rows st = insert 1000000 cap rows st := by
  rw [insert_eq_insertRows (b := 1) (by omega) cap rows st,
    insert_eq_insertRows (b := 1000000) (by omega) cap rows st]

/-- C9: phase separation — a completed Normalization Pass leaves every
store table exactly as it found it, and a completed Insertion Pass (any
batch size) leaves every dedup-index sub-database exactly as it found it. -/
theorem c9_phase_frame :
    (∀ (cap : Option Nat) (rows : List Row) (st st' : S),
        normalize cap rows st = .ok st' →
        st'.relation_t = st.relation_t ∧ st'.language_t = st.language_t ∧
        st'.label_t = st.label_t ∧ st'.concept_t = st.concept_t ∧
        st'.edge_t = st.edge_t) ∧
    (∀ (b : Nat) (cap : Option Nat) (rows : List Row) (st st' : S),
        insert b cap rows st = .ok st' →
        st'.relation_db = st.relation_db ∧ st'.language_db = st.language_db ∧
        st'.label_db = st.label_db ∧ st'.concept_db = st.concept_db) := by
  constructor
  · intro cap rows st st' h
    obtain ⟨f1, f2, f3, f4, f5, _⟩ := normalize_frame h
    exact ⟨f1, f2, f3, f4, f5⟩
  · intro b cap rows st st' h
    exact insert_frame h

/-- C9 witness state: the dedup index a concrete one-row normalization
builds. -/
def c9WitNM : S :=
  (normalize none [⟨"/r/IsA", "/c/en/a", "/c/fr/b", "m"⟩] initS).toOption.getD initS

/-- C9 witness state: the store a concrete one-row insertion fills. -/
def c9WitFS : S :=
  (insert 1 none [⟨"/r/IsA", "/c/en/a", "/c/fr/b", "m"⟩] c9WitNM).toOption.getD initS

/-- C9 witness: both frame conditions hold on a concrete one-row run. -/
theorem c9_witness :
    (c9WitNM.relation_t = initS.relation_t ∧
      c9WitNM.language_t = initS.language_t ∧
      c9WitNM.label_t = initS.label_t ∧
      c9WitNM.concept_t = initS.concept_t ∧
      c9WitNM.edge_t = initS.edge_t) ∧
    (c9WitFS.relation_db = c9WitNM.relation_db ∧
      c9WitFS.language_db = c9WitNM.language_db ∧
      c9WitFS.label_db = c9WitNM.label_db ∧
      c9WitFS.concept_db = c9WitNM.concept_db) :=
  ⟨c9_phase_frame.1 none [⟨"/r/IsA", "/c/en/a", "/c/fr/b", "m"⟩] initS c9WitNM
      (by rfl),
    c9_phase_frame.2 1 none [⟨"/r/IsA", "/c/en/a", "/c/fr/b", "m"⟩] c9WitNM c9WitFS
      (by rfl)⟩

/-- C10: entity inserts carry no explicit id, and since each namespace's
inserts happen in index-id order 1, 2, 3, ... with none skipped, position
`id - 1` of each table is the row for the key with surrogate id `id`; hence
every edge row's three foreign keys resolve to exactly the entity rows
derived from that edge's own identifiers, down through concept → label →
language. -/
theorem c10_fk_resolution (cap : Option Nat) (rows : List Row)
    (hWF : WFRows (sourceRows cap rows)) :
    ∃ st, load_dump_to_db cap rows = .ok st ∧
      ∀ (j : Nat) (e : Nat × Nat × Nat × String), st.edge_t[j]? = some e →
        ∃ r : Row, (sourceRows cap rows)[j]? = some r ∧ e.2.2.2 = r.etc ∧
          st.relation_t[e.1 - 1]? = some (relation_in_bytes r.relation_uri) ∧
          (∃ lid gid,
            st.concept_t[e.2.1 - 1]? = some (lid, sense_label_of r.start_uri) ∧
            st.label_t[lid - 1]? = some (labelTextT r.start_uri, gid) ∧
            st.language_t[gid - 1]? = some (langKeyT r.start_uri)) ∧
          (∃ lid gid,
            st.concept_t[e.2.2.1 - 1]? = some (lid, sense_label_of r.end_uri) ∧
            st.label_t[lid - 1]? = some (labelTextT r.end_uri, gid) ∧
            st.language_t[gid - 1]? = some (langKeyT r.end_uri)) := by
  obtain ⟨NM, FS, _, _, hl, hins⟩ := load_spec hWF
  obtain ⟨_, _, _, _, _, _, _, _, ht1, ht2, ht3, ht4, hge, _⟩ := hins
  refine ⟨FS, hl, ?_⟩
  intro j e hj
  rw [hge, List.getElem?_map] at hj
  cases hr : (sourceRows cap rows)[j]? with
  | none =>
    rw [hr] at hj
    simp at hj
  | some r =>
    rw [hr] at hj
    simp only [Option.map_some', Option.some.injEq] at hj
    subst hj
    have hrmem : r ∈ sourceRows cap rows := List.getElem?_mem hr
    refine ⟨r, rfl, rfl, ?_, ?_, ?_⟩
    · -- relation foreign key
      obtain ⟨v, hvget, hvf, _⟩ :=
        resolve_getElem (f := relation_in_bytes) relation_in_bytes (mem_RU hrmem)
      rw [← ht1] at hvget
      rw [hvf] at hvget
      exact hvget
    · -- start concept chain
      have hmemS : r.start_uri ∈ CU (sourceRows cap rows) := mem_CU_start hrmem
      obtain ⟨v, hvget, hvf, _⟩ :=
        resolve_getElem (f := conKeyT) (conceptRowBy (CU (sourceRows cap rows))) hmemS
      have hveq : v = r.start_uri := hvf
      subst hveq
      rw [← ht4] at hvget
      refine ⟨idOfBy labKeyT (CU (sourceRows cap rows)) r.start_uri,
        idOfBy langKeyT (CU (sourceRows cap rows)) r.start_uri, hvget, ?_, ?_⟩
      · obtain ⟨w, hwget, hwf, hwmem⟩ :=
          resolve_getElem (f := labKeyT) (labelRowBy (CU (sourceRows cap rows))) hmemS
        rw [← ht3] at hwget
        obtain ⟨et, el⟩ :=
          labKeyT_inj (CU_mem_wf hWF hwmem) (CU_mem_wf hWF hmemS) hwf
        have hrow : labelRowBy (CU (sourceRows cap rows)) w
            = (labelTextT r.start_uri,
               idOfBy langKeyT (CU (sourceRows cap rows)) r.start_uri) := by
          unfold labelRowBy
          rw [et, idOfBy_congr (CU (sourceRows cap rows)) el]
        rw [hrow] at hwget
        exact hwget
      · obtain ⟨w, hwget, hwf, _⟩ :=
          resolve_getElem (f := langKeyT) langKeyT hmemS
        rw [← ht2] at hwget
        rw [hwf] at hwget
        exact hwget
    · -- end concept chain
      have hmemE : r.end_uri ∈ CU (sourceRows cap rows) := mem_CU_end hrmem
      obtain ⟨v, hvget, hvf, _⟩ :=
        resolve_getElem (f := conKeyT) (conceptRowBy (CU (sourceRows cap rows))) hmemE
      have hveq : v = r.end_uri := hvf
      subst hveq
      rw [← ht4] at hvget
      refine ⟨idOfBy labKeyT (CU (sourceRows cap rows)) r.end_uri,
        idOfBy langKeyT (CU (sourceRows cap rows)) r.end_uri, hvget, ?_, ?_⟩
      · obtain ⟨w, hwget, hwf, hwmem⟩ :=
          resolve_getElem (f := labKeyT) (labelRowBy (CU (sourceRows cap rows))) hmemE
        rw [← ht3] at hwget
        obtain ⟨et, el⟩ :=
          labKeyT_inj (CU_mem_wf hWF hwmem) (CU_mem_wf hWF hmemE) hwf
        have hrow : labelRowBy (CU (sourceRows cap rows)) w
            = (labelTextT r.end_uri,
               idOfBy langKeyT (CU (sourceRows cap rows)) r.end_uri) := by
          unfold labelRowBy
          rw [et, idOfBy_congr (CU (sourceRows cap rows)) el]
        rw [hrow] at hwget
        exact hwget
      · obtain ⟨w, hwget, hwf, _⟩ :=
          resolve_getElem (f := langKeyT) langKeyT hmemE
        rw [← ht2] at hwget
        rw [hwf] at hwget
        exact hwget

/-- C10 witness at a concrete two-row dump with shared concepts. -/
theorem c10_witness :
    ∃ st, load_dump_to_db none
        [⟨"/r/IsA", "/c/en/apple/n", "/c/en/fruit", "w1"⟩,
         ⟨"/r/AtLocation", "/c/en/apple/n", "/c/fr/table", "w2"⟩] = .ok st ∧
      ∀ (j : Nat) (e : Nat × Nat × Nat × String), st.edge_t[j]? = some e →
        ∃ r : Row, (sourceRows none
            [⟨"/r/IsA", "/c/en/apple/n", "/c/en/fruit", "w1"⟩,
             ⟨"/r/AtLocation", "/c/en/apple/n", "/c/fr/table", "w2"⟩])[j]? = some r ∧
          e.2.2.2 = r.etc ∧
          st.relation_t[e.1 - 1]? = some (relation_in_bytes r.relation_uri) ∧
          (∃ lid gid,
            st.concept_t[e.2.1 - 1]? = some (lid, sense_label_of r.start_uri) ∧
            st.label_t[lid - 1]? = some (labelTextT r.start_uri, gid) ∧
            st.language_t[gid - 1]? = some (langKeyT r.start_uri)) ∧
          (∃ lid gid,
            st.concept_t[e.2.2.1 - 1]? = some (lid, sense_label_of r.end_uri) ∧
            st.label_t[lid - 1]? = some (labelTextT r.end_uri, gid) ∧
            st.language_t[gid - 1]? = some (langKeyT r.end_uri)) :=
  c10_fk_resolution none
    [⟨"/r/IsA", "/c/en/apple/n", "/c/en/fruit", "w1"⟩,
     ⟨"/r/AtLocation", "/c/en/apple/n", "/c/fr/table", "w2"⟩] (by decide)

end ConceptnetLite
